import Mathlib

/-!
Verification of the tangle repository's core: the qualified-path algebra
(`src/model/qualified_path.rs`), the tree model (`src/model/tree.rs`), the
conflict checker (`src/git/conflict.rs`), the git interface
(`src/git/interface.rs`) and the derivation engine
(`src/cli/commands/derive.rs`).

Rust `String` values are embedded as `List Char` (named `Str`); the string
operations the code uses (`split('/')`, `trim`, `replace`, `contains`) are
defined below character by character, following the Rust semantics.
-/

namespace Tangle

/-- Rust `String` is modelled as a list of characters. -/
abbrev Str := List Char

/-- Rust `str::split(sep)`: splitting an empty string yields one empty piece,
`n` separators yield `n + 1` pieces. -/
def splitOnChar (sep : Char) : Str → List Str
  | [] => [[]]
  | c :: rest =>
    if c = sep then [] :: splitOnChar sep rest
    else
      match splitOnChar sep rest with
      | s :: ss => (c :: s) :: ss
      | [] => [[c]]

/-- Rust `str::trim_start`: drop leading whitespace. -/
def trimLeft (s : Str) : Str := s.dropWhile Char.isWhitespace

/-- Rust `str::trim`: drop leading and trailing whitespace. -/
def trimStr (s : Str) : Str := ((trimLeft s).reverse.dropWhile Char.isWhitespace).reverse

/-- Rust `str::replace(pat, "")` for a single-character pattern: remove every
occurrence of the character. -/
def removeAll (x : Char) (s : Str) : Str := s.filter (fun c => c ≠ x)

/-- Rust `Vec::join("/")` on a vector of segments. -/
def joinSep : List Str → Str
  | [] => []
  | [s] => s
  | s :: rest => s ++ '/' :: joinSep rest

/-- A qualified path (`QualifiedPath`) is an ordered sequence of string
segments. -/
abbrev QPath := List Str

/-- `QualifiedPath::push`: strips `*` and `_` marker characters, trims
whitespace, then appends every `/`-delimited sub-segment. -/
def qpPush (p : QPath) (s : Str) : QPath :=
  p ++ splitOnChar '/' (trimStr (removeAll '_' (removeAll '*' s)))

/-- `QualifiedPath::from` on a raw string: push onto the empty path. -/
def qpFromStr (s : Str) : QPath := qpPush [] s

/-- `QualifiedPath::from(Vec<String>)`: push each element in order. -/
def qpFromVec (l : List Str) : QPath := l.foldl qpPush []

/-- `QualifiedPath::to_string` / `Display`: join the segments with `/`. -/
def qpToString (p : QPath) : Str := joinSep p

/-- `QualifiedPath::trim_whitespaces`: drop an empty first segment, then an
empty last segment, then rebuild through `From<Vec<String>>` (which re-pushes
every segment). -/
def trimWhitespaces (p : QPath) : QPath :=
  let p1 := match p with
    | [] => ([] : QPath)
    | s :: rest => if s = [] then rest else s :: rest
  let p2 := if p1.getLast? = some [] then p1.dropLast else p1
  qpFromVec p2

/-- Helper for `to_git_branch`: prefix every segment but the last with the
hierarchy marker `_`. -/
def markSegments : QPath → QPath
  | [] => []
  | [s] => [s]
  | s :: rest => ('_' :: s) :: markSegments rest

/-- `QualifiedPath::to_git_branch`: trim empty boundary segments, prefix all
but the last segment with `_`, join with `/`.  When the trimmed path is empty
the Rust code indexes `path[..len - 1]` with `len = 0` and panics; that case
is modelled as the empty branch name. -/
def toGitBranch (p : QPath) : Str :=
  match trimWhitespaces p with
  | [] => []
  | [x] => x
  | xs => joinSep (markSegments xs)

/-- `QualifiedPath::is_absolute`: nonempty and the first segment is empty. -/
def qpIsAbsolute (p : QPath) : Prop := p.head? = some []

/-- `QualifiedPath::is_dir`: more than one segment and the last is empty. -/
def qpIsDir (p : QPath) : Prop := p.length > 1 ∧ p.getLast? = some []

instance : DecidablePred qpIsAbsolute := fun p => by
  unfold qpIsAbsolute; infer_instance

instance : DecidablePred qpIsDir := fun p => by
  unfold qpIsDir; infer_instance

/-- The loop body of `impl Add for QualifiedPath`: `parts` are the remaining
segments of `rhs`, `i` the current index, `len = rhs.len()`, `path` the
accumulating result and `next` the `next_index` counter.  A `.` segment is
skipped, `..` decrements `next_index` and truncates the path to it, an empty
segment is kept only in final position or on an empty accumulator, and any
other segment is pushed (through `QualifiedPath::push`). -/
def addLoop : List Str → Nat → Nat → QPath → Nat → QPath
  | [], _, _, path, _ => path
  | s :: rest, i, len, path, next =>
    if s = ['.'] then addLoop rest (i + 1) len path next
    else if s = ['.', '.'] then
      if next > 0 then addLoop rest (i + 1) len (path.take (next - 1)) (next - 1)
      else addLoop rest (i + 1) len path next
    else if s = [] then
      if i = len - 1 ∨ path = [] then addLoop rest (i + 1) len (qpPush path []) next
      else addLoop rest (i + 1) len path next
    else addLoop rest (i + 1) len (qpPush path s) (next + 1)

/-- `impl Add for QualifiedPath`: records `next_index = self.len()`, strips a
trailing empty segment from `self` when it has more than one segment, returns
`rhs` unchanged when `rhs` is absolute (empty first segment and more than one
segment), and otherwise runs the resolution loop. -/
def qpAdd (a b : QPath) : QPath :=
  let stripped := if a.getLast? = some [] ∧ a.length > 1 then a.take (a.length - 1) else a
  match b with
  | [] => stripped
  | s :: _ => if s = [] ∧ b.length > 1 then b else addLoop b 0 b.length stripped a.length

/-- The filesystem-style normalized join described by the specification,
written from the spec text of claim C3: a leading (in fact any) `.` segment of
`b` is a no-op, each `..` pops one segment from the accumulating result
(clamped at zero), an absolute `b` replaces `a` entirely, an empty final
segment of `b` marks the result as a directory reference, and `a` enters the
resolution as a current-directory reference (its directory marker is
dropped). -/
def normLoop : List Str → QPath → QPath
  | [], acc => acc
  | s :: rest, acc =>
    if s = ['.'] then normLoop rest acc
    else if s = ['.', '.'] then normLoop rest acc.dropLast
    else if s = [] then
      if rest = [] then acc ++ [[]] else normLoop rest acc
    else normLoop rest (acc ++ [s])

/-- Spec-side normalized join for claim C3 (see `normLoop`). -/
def normJoin (a b : QPath) : QPath :=
  if b.head? = some [] ∧ b.length > 1 then b
  else normLoop b (if a.getLast? = some [] ∧ a.length > 1 then a.dropLast else a)

/-- Segments that survive `QualifiedPath::push` unchanged: no separator, no
marker characters, no surrounding whitespace. -/
def CleanSeg (s : Str) : Prop := '/' ∉ s ∧ '_' ∉ s ∧ '*' ∉ s ∧ trimStr s = s

instance : DecidablePred CleanSeg := fun s => by
  unfold CleanSeg; infer_instance

/-- Valid qualified paths for the branch round-trip: nonempty, relative (no
leading empty segment), not a directory reference (no trailing empty
segment), with clean segments.  This is exactly the image of parsing a branch
name. -/
def ValidQP (p : QPath) : Prop :=
  p ≠ [] ∧ p.head? ≠ some [] ∧ p.getLast? ≠ some [] ∧ ∀ s ∈ p, CleanSeg s

instance : DecidablePred ValidQP := fun p => by
  unfold ValidQP; infer_instance

/-- `FeatureMetadata` from `derive.rs`: a feature path stored as a raw string;
equality (the derived `PartialEq`) compares the stored strings. -/
structure FeatureMetadata where
  path : Str
deriving DecidableEq

/-- `FeatureMetadata::get_qualified_path`: parse the stored string. -/
def fmQualifiedPath (fm : FeatureMetadata) : QPath := qpFromStr fm.path

/-- `DerivationState` from `derive.rs`. -/
inductive DerivationState where
  | starting
  | inProgress
  | finished
deriving DecidableEq

/-- `Display for DerivationState`. -/
def stateToString : DerivationState → Str
  | .starting => "starting".toList
  | .inProgress => "in_progress".toList
  | .finished => "finished".toList

/-- `DerivationState::from_string`; any other string hits `unreachable!`,
modelled as `none`. -/
def stateFromString (s : Str) : Option DerivationState :=
  if s = "starting".toList then some .starting
  else if s = "in_progress".toList then some .inProgress
  else if s = "finished".toList then some .finished
  else none

/-- `DerivationMetadata` from `derive.rs`: the state is stored as a string,
exactly as in the Rust struct. -/
structure DerivationMetadata where
  id : Str
  state : Str
  completed : List FeatureMetadata
  missing : List FeatureMetadata
  total : List FeatureMetadata
deriving DecidableEq

/-- The private constructor `DerivationMetadata::new`. -/
def dmNew (id : Str) (state : DerivationState)
    (completed missing total : List FeatureMetadata) : DerivationMetadata :=
  ⟨id, stateToString state, completed, missing, total⟩

/-- `DerivationMetadata::new_initial`.  The freshly generated UUID is an
external input and is passed as the `id` parameter. -/
def newInitial (id : Str) (features : List FeatureMetadata) : DerivationMetadata :=
  dmNew id .starting [] features features

/-- The `total` accumulation loop of `new_from_previously_finished`: append
each feature not already contained. -/
def growTotal (total : List FeatureMetadata) (features : List FeatureMetadata) :
    List FeatureMetadata :=
  features.foldl (fun t f => if f ∈ t then t else t ++ [f]) total

/-- `DerivationMetadata::new_from_previously_finished`.  Deriving from a
record whose state is not `Finished` panics in Rust; the panic is modelled as
`none`.  The fresh UUID is the `id` parameter. -/
def newFromPreviouslyFinished (id : Str) (previous : DerivationMetadata)
    (features : List FeatureMetadata) : Option DerivationMetadata :=
  match stateFromString previous.state with
  | some .finished => some (dmNew id .starting [] features (growTotal previous.total features))
  | _ => none

/-- `DerivationMetadata::as_finished`. -/
def asFinished (m : DerivationMetadata) : DerivationMetadata :=
  { m with state := stateToString .finished }

/-- `DerivationMetadata::as_in_progress`. -/
def asInProgress (m : DerivationMetadata) : DerivationMetadata :=
  { m with state := stateToString .inProgress }

/-- One iteration of `DerivationMetadata::mark_as_completed`: if some missing
entry parses to the feature path, remove all such entries from `missing` and
push the first found one onto `completed`. -/
def markStep (m : DerivationMetadata) (feature : QPath) : DerivationMetadata :=
  match m.missing.find? (fun fm => fmQualifiedPath fm = feature) with
  | some fm =>
    { m with
      missing := m.missing.filter (fun fm2 => ¬ fmQualifiedPath fm2 = feature),
      completed := m.completed ++ [fm] }
  | none => m

/-- `DerivationMetadata::mark_as_completed` over the whole feature list. -/
def markAsCompleted (m : DerivationMetadata) (features : List QPath) : DerivationMetadata :=
  features.foldl markStep m

/-- The record invariant of claim C6: completed and missing are disjoint and
both contained in total. -/
def dmInv (m : DerivationMetadata) : Prop :=
  (∀ x ∈ m.completed, x ∈ m.total) ∧ (∀ x ∈ m.missing, x ∈ m.total) ∧
    ∀ x ∈ m.completed, x ∉ m.missing

instance : DecidablePred dmInv := fun m => by
  unfold dmInv; infer_instance

/-- Errors produced by `handle_continue`, modelled as tags for the Rust error
strings. -/
inductive ContinueError where
  | notStarted
  | finishedAlready
  | incomplete
deriving DecidableEq

/-- `handle_continue` from `derive.rs`.  The human-readable `context.info`
output is not modelled; the `unreachable!` of `DerivationState::from_string`
on a malformed state string and the `missing[0]` index panic on an empty
missing list are modelled as the outer `none`. -/
def handleContinue (lastState : Option DerivationMetadata) (continueDerivation : Bool) :
    Option (Except ContinueError Bool) :=
  match lastState, continueDerivation with
  | none, true => some (Except.error ContinueError.notStarted)
  | some m, true =>
    match stateFromString m.state with
    | none => none
    | some DerivationState.finished => some (Except.error ContinueError.finishedAlready)
    | some _ =>
      match m.missing with
      | [] => none
      | _ :: _ => some (Except.ok true)
  | some m, false =>
    match stateFromString m.state with
    | none => none
    | some DerivationState.starting => some (Except.error ContinueError.incomplete)
    | some DerivationState.inProgress => some (Except.error ContinueError.incomplete)
    | some DerivationState.finished => some (Except.ok false)
  | none, false => some (Except.ok false)

/-- `Commit` from `commit.rs`: a hash and a message. -/
structure Commit where
  hash : Str
  message : Str

/-- The `DERIVATION_COMMENT` sentinel of `derive.rs`. -/
def derivationComment : Str :=
  "# DO NOT EDIT OR REMOVE THIS COMMIT\nDERIVATION STATUS\n".toList

/-- Modelled from the spec: JSON string escaping as performed by the external
`serde_json` serializer (not part of this repository).  For characters at or
above `0x20` only the quote and the backslash are escaped; the round-trip
theorems are stated on records whose strings contain no control
characters. -/
def jsonEscape : Str → Str
  | [] => []
  | c :: rest => (if c = '"' ∨ c = '\\' then ['\\', c] else [c]) ++ jsonEscape rest

/-- Modelled from the spec: a serialized JSON string literal. -/
def jsonStr (s : Str) : Str := '"' :: (jsonEscape s ++ ['"'])

/-- Modelled from the spec: `serde_json::to_string` of one `FeatureMetadata`
value. -/
def jsonFM (fm : FeatureMetadata) : Str :=
  "\x7b\"path\":".toList ++ jsonStr fm.path ++ "\x7d".toList

/-- Modelled from the spec: the comma-separated items of a JSON array of
`FeatureMetadata`. -/
def jsonFMItems : List FeatureMetadata → Str
  | [] => []
  | [fm] => jsonFM fm
  | fm :: rest => jsonFM fm ++ ',' :: jsonFMItems rest

/-- Modelled from the spec: a JSON array of `FeatureMetadata`. -/
def jsonFMList (l : List FeatureMetadata) : Str := '[' :: (jsonFMItems l ++ [']'])

/-- Modelled from the spec: `serde_json::to_string` of a
`DerivationMetadata` record (compact form, fields in declaration order). -/
def jsonMetadata (m : DerivationMetadata) : Str :=
  "\x7b\"id\":".toList ++ jsonStr m.id
    ++ ",\"state\":".toList ++ jsonStr m.state
    ++ ",\"completed\":".toList ++ jsonFMList m.completed
    ++ ",\"missing\":".toList ++ jsonFMList m.missing
    ++ ",\"total\":".toList ++ jsonFMList m.total
    ++ "\x7d".toList

/-- Consume `pat` from the front of `s`, failing when it is not there. -/
def stripLead : Str → Str → Option Str
  | [], s => some s
  | _ :: _, [] => none
  | c :: cs, d :: ds => if c = d then stripLead cs ds else none

/-- Modelled from the spec: the body of a JSON string literal (opening quote
already consumed), undoing `jsonEscape`; returns the content and the
remaining input. -/
def parseJsonStrBody : Str → Option (Str × Str)
  | [] => none
  | c :: rest =>
    if c = '"' then some ([], rest)
    else if c = '\\' then
      match rest with
      | [] => none
      | d :: rest2 =>
        match parseJsonStrBody rest2 with
        | some (content, after) => some (d :: content, after)
        | none => none
    else
      match parseJsonStrBody rest with
      | some (content, after) => some (c :: content, after)
      | none => none

/-- Modelled from the spec: parse one serialized `FeatureMetadata` value. -/
def parseFMItem (s : Str) : Option (FeatureMetadata × Str) :=
  match stripLead "\x7b\"path\":\"".toList s with
  | none => none
  | some r1 =>
    match parseJsonStrBody r1 with
    | none => none
    | some (content, r2) =>
      match stripLead "\x7d".toList r2 with
      | none => none
      | some r3 => some (⟨content⟩, r3)

/-- Modelled from the spec: parse the comma-separated items of a nonempty
serialized `FeatureMetadata` array; `fuel` bounds the number of items. -/
def parseFMItems : Nat → Str → Option (List FeatureMetadata × Str)
  | 0, _ => none
  | fuel + 1, s =>
    match parseFMItem s with
    | none => none
    | some (fm, r) =>
      match r with
      | c :: r2 =>
        if c = ',' then
          match parseFMItems fuel r2 with
          | some (l, r3) => some (fm :: l, r3)
          | none => none
        else some ([fm], c :: r2)
      | [] => some ([fm], [])

/-- Modelled from the spec: parse a serialized `FeatureMetadata` array. -/
def parseFMList (s : Str) : Option (List FeatureMetadata × Str) :=
  match s with
  | [] => none
  | c :: rest =>
    if c = '[' then
      match rest with
      | [] => none
      | d :: r2 =>
        if d = ']' then some ([], r2)
        else
          match parseFMItems rest.length rest with
          | some (l, r3) =>
            match r3 with
            | e :: r4 => if e = ']' then some (l, r4) else none
            | [] => none
          | none => none
    else none

/-- Modelled from the spec: `serde_json::from_str::<DerivationMetadata>` on
the exact grammar produced by the serializer; a failure of the external
parser is `none`.  The whole input must be consumed. -/
def parseMetadata (s : Str) : Option DerivationMetadata := do
  let r1 ← stripLead "\x7b\"id\":\"".toList s
  let (idv, r2) ← parseJsonStrBody r1
  let r3 ← stripLead ",\"state\":\"".toList r2
  let (st, r4) ← parseJsonStrBody r3
  let r5 ← stripLead ",\"completed\":".toList r4
  let (comp, r6) ← parseFMList r5
  let r7 ← stripLead ",\"missing\":".toList r6
  let (miss, r8) ← parseFMList r7
  let r9 ← stripLead ",\"total\":".toList r8
  let (tot, r10) ← parseFMList r9
  let r11 ← stripLead "\x7d".toList r10
  match r11 with
  | [] => some ⟨idv, st, comp, miss, tot⟩
  | _ => none

/-- Rust `str::starts_with` on character lists (`pat`, then the string). -/
def leadsWith : Str → Str → Bool
  | [], _ => true
  | _ :: _, [] => false
  | c :: cs, d :: ds => c = d && leadsWith cs ds

/-- Rust `str::contains` with a string pattern: some suffix starts with the
pattern. -/
def containsSub : Str → Str → Bool
  | [], pat => leadsWith pat []
  | c :: rest, pat => leadsWith pat (c :: rest) || containsSub rest pat

/-- Rust `str::replace(pat, rep)` with explicit fuel (leftmost-first,
non-overlapping); `replaceAll` supplies enough fuel for the whole string. -/
def replaceAllFuel (pat rep : Str) : Nat → Str → Str
  | 0, s => s
  | fuel + 1, s =>
    match stripLead pat s with
    | some rest => if pat = [] then s else rep ++ replaceAllFuel pat rep fuel rest
    | none =>
      match s with
      | [] => []
      | c :: s2 => c :: replaceAllFuel pat rep fuel s2

/-- Rust `str::replace(pat, rep)`. -/
def replaceAll (pat rep s : Str) : Str := replaceAllFuel pat rep (s.length + 1) s

/-- `make_derivation_commit_message`: the sentinel comment followed by the
serialized record.  (The `serde_json::error::Result` wrapper never fails on
this struct; the function is modelled as total.) -/
def makeDerivationCommitMessage (m : DerivationMetadata) : Str :=
  derivationComment ++ jsonMetadata m

/-- `parse_derivation_commit_message`: `None` when the message lacks the
sentinel; otherwise every occurrence of the sentinel is removed and the rest
is handed to the JSON parser (whose failure is the inner `none`). -/
def parseDerivationCommitMessage (c : Commit) : Option (Option DerivationMetadata) :=
  if containsSub c.message derivationComment then
    some (parseMetadata (replaceAll derivationComment [] c.message))
  else none

/-- `get_last_metadata`: scan the commits (newest first) for the first one
with a parseable sentinel; a sentinel commit with malformed payload is a hard
error (`Except.error`). -/
def getLastMetadata (commits : List Commit) : Except Unit (Option DerivationMetadata) :=
  match commits.findSome? parseDerivationCommitMessage with
  | some (some m) => Except.ok (some m)
  | some none => Except.error ()
  | none => Except.ok none

/-- Strings with no control characters (below `0x20`): the domain on which
the modelled serializer agrees with `serde_json`. -/
def NoControlChars (s : Str) : Prop := ∀ c ∈ s, 32 ≤ c.toNat

/-- A record all of whose strings are control-character-free. -/
def dmCleanStrings (m : DerivationMetadata) : Prop :=
  NoControlChars m.id ∧ NoControlChars m.state ∧
    (∀ fm ∈ m.completed, NoControlChars fm.path) ∧
    (∀ fm ∈ m.missing, NoControlChars fm.path) ∧
    (∀ fm ∈ m.total, NoControlChars fm.path)

instance : DecidablePred NoControlChars := fun s => by
  unfold NoControlChars; infer_instance

instance : DecidablePred dmCleanStrings := fun m => by
  unfold dmCleanStrings; infer_instance

/-- `GitError` (from the `git::error` module, not under `src/`): either a
process-level failure of the git invocation or a `GitInterfaceError` carrying
a message. -/
inductive GErr where
  | io (code : Nat)
  | iface (msg : Str)
deriving DecidableEq

/-- `ConflictStatistic` from `conflict.rs`. -/
inductive ConflictStatistic where
  | OK (paths : List QPath)
  | CONFLICT (paths : List QPath)
  | ERROR (paths : List QPath) (cause : GErr)

/-- `PartialEq for ConflictStatistic`: same variant and equal path lists; the
error cause is ignored. -/
def statEq : ConflictStatistic → ConflictStatistic → Prop
  | ConflictStatistic.OK a, ConflictStatistic.OK b => a = b
  | ConflictStatistic.CONFLICT a, ConflictStatistic.CONFLICT b => a = b
  | ConflictStatistic.ERROR a _, ConflictStatistic.ERROR b _ => a = b
  | _, _ => False

/-- The raw git commands issued by the conflict checker. -/
inductive GitCmd where
  | currentBranch
  | checkoutCmd (branch : Str)
  | createBranchCmd (branch : Str)
  | mergeCmd (branches : List Str)
  | abortMergeCmd
  | deleteBranchCmd (branch : Str)
deriving DecidableEq

/-- Outcome of one raw git invocation, supplied by the environment: a
process-level error (the `io::Result` failure propagated by `?`) or an exit
with a success flag. -/
inductive CmdOutcome where
  | ioErr (code : Nat)
  | exit (success : Bool)
deriving DecidableEq

/-- The shared mutable backend state: the branch list, the checked-out
branch, whether a merge is in progress, plus a clock indexing the
environment and a ghost trace of the commands issued. -/
structure RepoState where
  branches : List Str
  headBr : Str
  merging : Bool
  clock : Nat
  trace : List GitCmd
deriving DecidableEq

/-- Run one raw git command: consume the environment outcome at the current
clock, record the command in the trace, and apply the git-side effect. -/
def runRaw (env : Nat → CmdOutcome) (cmd : GitCmd) (eff : Bool → RepoState → RepoState)
    (st : RepoState) : Except GErr Bool × RepoState :=
  let st1 : RepoState := { st with clock := st.clock + 1, trace := st.trace ++ [cmd] }
  match env st.clock with
  | CmdOutcome.ioErr n => (Except.error (GErr.io n), st1)
  | CmdOutcome.exit ok => (Except.ok ok, eff ok st1)

/-- Effect of `git checkout b`: move HEAD on success. -/
def checkoutEff (b : Str) (ok : Bool) (st : RepoState) : RepoState :=
  if ok then { st with headBr := b } else st

/-- Effect of `git branch b`: add the branch on success. -/
def createEff (b : Str) (ok : Bool) (st : RepoState) : RepoState :=
  if ok then { st with branches := b :: st.branches } else st

/-- Effect of `git merge`: a reported failure leaves a merge in progress. -/
def mergeEff (ok : Bool) (st : RepoState) : RepoState :=
  if ok then st else { st with merging := true }

/-- Effect of `git merge --abort`: clear the in-progress merge on success. -/
def abortEff (ok : Bool) (st : RepoState) : RepoState :=
  if ok then { st with merging := false } else st

/-- Effect of `git branch -D b`: remove the branch on success. -/
def deleteEff (b : Str) (ok : Bool) (st : RepoState) : RepoState :=
  if ok then { st with branches := st.branches.erase b } else st

/-- Effect of a read-only command. -/
def noEff (_ : Bool) (st : RepoState) : RepoState := st

/-- The error message format of `GitInterface::checkout`. -/
def checkoutErrMsg (p : QPath) : Str :=
  "Cannot checkout branch ".toList ++ qpToString p ++ ": does not exist".toList

/-- `GitInterface::checkout`: refuse with a descriptive error — issuing no
backend command — when the tree model records no branch at the path (the
model is the `qualified_paths_with_branch` list); otherwise delegate to the
raw checkout of the branch form.  The exit status of the raw checkout is not
inspected. -/
def ifaceCheckout (modelPaths : List QPath) (env : Nat → CmdOutcome) (p : QPath)
    (st : RepoState) : Except GErr Bool × RepoState :=
  if p ∈ modelPaths then
    runRaw env (GitCmd.checkoutCmd (toGitBranch p)) (checkoutEff (toGitBranch p)) st
  else (Except.error (GErr.iface (checkoutErrMsg p)), st)

/-- `ConflictCheckBaseBranch`. -/
inductive BaseBranch where
  | current
  | custom (p : QPath)

/-- The disposable branch `QualifiedPath::from("tmp")`. -/
def tmpPath : QPath := qpFromStr "tmp".toList

/-- `ConflictChecker::check_two`: record the current checkout, optionally
check out a custom baseline, create and check out the disposable branch,
merge both paths, abort the merge when it reports failure, restore the
original checkout and delete the disposable branch.  Every `?` in the Rust
code is an early return: on a command error the remaining steps — including
the cleanup — are skipped. -/
def checkTwo (modelPaths : List QPath) (base : BaseBranch) (l r : QPath)
    (env : Nat → CmdOutcome) (st0 : RepoState) : Except GErr Bool × RepoState :=
  match runRaw env GitCmd.currentBranch noEff st0 with
  | (Except.error e, st) => (Except.error e, st)
  | (Except.ok _, st1) =>
    let currentPath : QPath := qpPush [[]] st0.headBr
    match (match base with
           | BaseBranch.current => (Except.ok true, st1)
           | BaseBranch.custom p => ifaceCheckout modelPaths env p st1) with
    | (Except.error e, st) => (Except.error e, st)
    | (Except.ok _, st2) =>
      match runRaw env (GitCmd.createBranchCmd (toGitBranch tmpPath))
          (createEff (toGitBranch tmpPath)) st2 with
      | (Except.error e, st) => (Except.error e, st)
      | (Except.ok _, st3) =>
        match runRaw env (GitCmd.checkoutCmd (toGitBranch tmpPath))
            (checkoutEff (toGitBranch tmpPath)) st3 with
        | (Except.error e, st) => (Except.error e, st)
        | (Except.ok _, st4) =>
          match runRaw env (GitCmd.mergeCmd [toGitBranch l, toGitBranch r]) mergeEff st4 with
          | (Except.error e, st) => (Except.error e, st)
          | (Except.ok success, st5) =>
            match (if success then (Except.ok true, st5)
                   else runRaw env GitCmd.abortMergeCmd abortEff st5) with
            | (Except.error e, st) => (Except.error e, st)
            | (Except.ok _, st6) =>
              match ifaceCheckout modelPaths env currentPath st6 with
              | (Except.error e, st) => (Except.error e, st)
              | (Except.ok _, st7) =>
                match runRaw env (GitCmd.deleteBranchCmd (toGitBranch tmpPath))
                    (deleteEff (toGitBranch tmpPath)) st7 with
                | (Except.error e, st) => (Except.error e, st)
                | (Except.ok _, st8) => (Except.ok success, st8)

/-- `ConflictChecker::build_statistic`. -/
def buildStatistic (paths : List QPath) (result : Except GErr Bool) : ConflictStatistic :=
  match result with
  | Except.ok true => ConflictStatistic.OK paths
  | Except.ok false => ConflictStatistic.CONFLICT paths
  | Except.error e => ConflictStatistic.ERROR paths e

/-- The pair enumeration of `check_n_to_n_pairwise`: every unordered pair, in
index order. -/
def pairCombinations : List QPath → List (QPath × QPath)
  | [] => []
  | p :: rest => rest.map (fun q => (p, q)) ++ pairCombinations rest

/-- The clock index at which `check_two` issues the merge command when every
earlier command ran: after current-branch, optional base checkout, branch
creation and disposable checkout. -/
def mergePos : BaseBranch → Nat
  | BaseBranch.current => 3
  | BaseBranch.custom _ => 4

/-- A conflict graph: node indices (`petgraph` node indices as naturals) and
the undirected edge list built from OK statistics. -/
structure ConflictGraph where
  nodes : Finset Nat
  edges : List (Nat × Nat)

/-- Undirected adjacency of the conflict graph. -/
def adj (g : ConflictGraph) (a b : Nat) : Prop := (a, b) ∈ g.edges ∨ (b, a) ∈ g.edges

instance : ∀ g a b, Decidable (adj g a b) := fun g a b => by
  unfold adj; infer_instance

/-- A clique: a set of graph nodes that are pairwise adjacent. -/
def isClique (g : ConflictGraph) (c : Finset Nat) : Prop :=
  (∀ v ∈ c, v ∈ g.nodes) ∧ ∀ x ∈ c, ∀ y ∈ c, x ≠ y → adj g x y

instance : ∀ g c, Decidable (isClique g c) := fun g c => by
  unfold isClique; infer_instance

/-- A maximal clique: a clique no graph node can extend. -/
def isMaximalClique (g : ConflictGraph) (c : Finset Nat) : Prop :=
  isClique g c ∧ ∀ v ∈ g.nodes, v ∉ c → ¬ isClique g (insert v c)

instance : ∀ g c, Decidable (isMaximalClique g c) := fun g c => by
  unfold isMaximalClique; infer_instance

/-- `build_edges`: map every OK statistic — whose payload is the tested pair
— through the path-to-id table. -/
def buildEdges (okPairs : List (QPath × QPath)) (pathToId : QPath → Nat) :
    List (Nat × Nat) :=
  okPairs.map (fun lr => (pathToId lr.1, pathToId lr.2))

/-- `get_max_clique`: fold over the maximal cliques reported by the external
`petgraph::algo::maximal_cliques`, keeping the first clique strictly larger
than the best so far. -/
def getMaxClique (cliques : List (Finset Nat)) : Finset Nat :=
  cliques.foldl (fun best c => if c.card > best.card then c else best) ∅

/-- The concrete conflict graph of the claim: nodes A=0, B=1, C=2, D=3 and
edges exactly A-B, B-C, A-C. -/
def gABC : ConflictGraph := ⟨{0, 1, 2, 3}, [(0, 1), (1, 2), (0, 2)]⟩

/-- `NodeType` from the tree model. -/
inductive NodeType where
  | virtualRoot
  | area
  | featureRoot
  | feature
  | productRoot
  | product
  | tag
deriving DecidableEq

/-- A tree node: name, type, the `has_branch` metadata flag, and children
keyed by segment name. -/
inductive Node where
  | mk (name : Str) (ntype : NodeType) (meta : Bool) (children : List (Str × Node))

/-- Modelled from the spec: the fixed position rules classifying a child
node created under a parent (`node.rs` is not under `src/`): the first
segment under the virtual root is an Area; under an Area only the literal
`feature`/`product` segments root the feature/product subtrees; below them
nodes are Feature/Product, or Tag for a final segment inserted as a tag;
nothing can be inserted under a Tag. -/
def classifyChild (parent : NodeType) (name : Str) (isLast : Bool) (isTag : Bool) :
    Option NodeType :=
  match parent with
  | NodeType.virtualRoot => some NodeType.area
  | NodeType.area =>
    if name = "feature".toList then some NodeType.featureRoot
    else if name = "product".toList then some NodeType.productRoot
    else none
  | NodeType.featureRoot | NodeType.feature =>
    some (if isTag ∧ isLast then NodeType.tag else NodeType.feature)
  | NodeType.productRoot | NodeType.product =>
    some (if isTag ∧ isLast then NodeType.tag else NodeType.product)
  | NodeType.tag => none

/-- Replace or append the child with the given name. -/
def setChild (children : List (Str × Node)) (seg : Str) (c : Node) : List (Str × Node) :=
  if children.any (fun p => p.1 = seg) then
    children.map (fun p => if p.1 = seg then (seg, c) else p)
  else children ++ [(seg, c)]

/-- Modelled from the spec: `Node::insert_node_path` (`node.rs` is not under
`src/`): walk the segments from this node, lazily creating child nodes
classified by the fixed position rules, with metadata recording a branch;
a `WrongNodeTypeError` is `none`.  Re-inserting an existing path reuses the
existing nodes. -/
def insertNodePath (n : Node) (path : List Str) (isTag : Bool) : Option Node :=
  match path with
  | [] => some n
  | seg :: rest =>
    match n with
    | Node.mk name ntype meta children =>
      match classifyChild ntype seg (rest = []) isTag with
      | none => none
      | some cty =>
        let child : Node :=
          match children.find? (fun p => p.1 = seg) with
          | some pair => pair.2
          | none => Node.mk seg cty true []
        match insertNodePath child rest isTag with
        | none => none
        | some child2 => some (Node.mk name ntype meta (setChild children seg child2))

/-- `TreeDataModel` from `tree.rs`: the virtual root and the list of
qualified paths recorded as having a backend branch. -/
structure TreeDataModel where
  virtualRoot : Node
  qualifiedPathsWithBranch : List QPath

/-- `TreeDataModel::new`. -/
def treeNew : TreeDataModel := ⟨Node.mk [] NodeType.virtualRoot false [], []⟩

/-- `TreeDataModel::insert_qualified_path`: panics (outer `none`) unless the
path is absolute; inserts the node path below the virtual root (a
`WrongNodeTypeError` is the inner `none`); then pushes the path onto
`qualified_paths_with_branch` — unconditionally, also when `is_tag` is
true. -/
def insertQualifiedPath (t : TreeDataModel) (p : QPath) (isTag : Bool) :
    Option (Option TreeDataModel) :=
  if p.head? = some [] then
    match insertNodePath t.virtualRoot (qpFromVec (p.drop 1)) isTag with
    | none => some none
    | some root2 => some (some ⟨root2, t.qualifiedPathsWithBranch ++ [p]⟩)
  else none

/-- `TreeDataModel::has_branch`: membership in the recorded path list. -/
def hasBranch (t : TreeDataModel) (p : QPath) : Prop :=
  p ∈ t.qualifiedPathsWithBranch

instance : ∀ t p, Decidable (hasBranch t p) := fun t p => by
  unfold hasBranch; infer_instance

/-- A trivial all-success environment for witnesses. -/
def envOk : Nat → CmdOutcome := fun _ => CmdOutcome.exit true

/-- A small concrete repository state for witnesses. -/
def stMain : RepoState := ⟨["main".toList], "main".toList, false, 0, []⟩

/-- The tree obtained by inserting the tag path `/main/feature/root/v1` into
a fresh model. -/
def c9tree : TreeDataModel :=
  match insertQualifiedPath treeNew (qpFromStr "/main/feature/root/v1".toList) true with
  | some (some t) => t
  | _ => treeNew

/-- An environment whose merge invocation (clock 3, base = current) fails at
the process level; every other command succeeds. -/
def envMergeIoFail : Nat → CmdOutcome :=
  fun k => if k = 3 then CmdOutcome.ioErr 1 else CmdOutcome.exit true

/-- An environment whose merge invocation (clock 3, base = current) reports a
conflict; every other command succeeds. -/
def envMergeConflict : Nat → CmdOutcome :=
  fun k => if k = 3 then CmdOutcome.exit false else CmdOutcome.exit true

lemma removeAll_eq_self {x : Char} {s : Str} (h : x ∉ s) : removeAll x s = s := by
  unfold removeAll
  rw [List.filter_eq_self]
  intro a ha
  simp only [decide_eq_true_eq]
  exact fun e => h (e ▸ ha)

lemma splitOnChar_no_sep {sep : Char} {s : Str} (h : sep ∉ s) : splitOnChar sep s = [s] := by
  induction s with
  | nil => rfl
  | cons c t ih =>
    have hc : ¬ c = sep := fun e => h (e ▸ List.mem_cons_self c t)
    have ht : sep ∉ t := fun m => h (List.mem_cons_of_mem c m)
    simp only [splitOnChar, if_neg hc, ih ht]

lemma splitOnChar_append {sep : Char} {x t : Str} (h : sep ∉ x) :
    splitOnChar sep (x ++ sep :: t) = x :: splitOnChar sep t := by
  induction x with
  | nil => simp [splitOnChar]
  | cons c y ih =>
    have hc : ¬ c = sep := fun e => h (e ▸ List.mem_cons_self c y)
    have hy : sep ∉ y := fun m => h (List.mem_cons_of_mem c m)
    show splitOnChar sep (c :: (y ++ sep :: t)) = (c :: y) :: splitOnChar sep t
    rw [splitOnChar, if_neg hc, ih hy]

lemma trimLeft_eq_self_of_trim {s : Str} (h : trimStr s = s) : trimLeft s = s := by
  have hsub : trimLeft s <:+ s := List.dropWhile_suffix _
  have hlen : s.length ≤ (trimLeft s).length := by
    calc s.length = (trimStr s).length := by rw [h]
    _ ≤ (trimLeft s).reverse.length := by
          simpa [trimStr] using (List.dropWhile_suffix (l := (trimLeft s).reverse)
            (fun c => c.isWhitespace)).length_le
    _ = (trimLeft s).length := by simp
  exact hsub.sublist.eq_of_length_le hlen

lemma trimRight_eq_self_of_trim {s : Str} (h : trimStr s = s) :
    s.reverse.dropWhile Char.isWhitespace = s.reverse := by
  have h1 : trimLeft s = s := trimLeft_eq_self_of_trim h
  have h2 : (s.reverse.dropWhile Char.isWhitespace).reverse = s := by
    simpa [trimStr, h1] using h
  calc s.reverse.dropWhile Char.isWhitespace
      = ((s.reverse.dropWhile Char.isWhitespace).reverse).reverse := by simp
    _ = s.reverse := by rw [h2]

lemma not_ws_of_dropWhile_cons {c : Char} {t : Str}
    (h : (c :: t).dropWhile Char.isWhitespace = c :: t) : ¬ c.isWhitespace := by
  intro hws
  have h1 : (c :: t).dropWhile Char.isWhitespace = t.dropWhile Char.isWhitespace :=
    List.dropWhile_cons_of_pos hws
  have h2 : (t.dropWhile Char.isWhitespace).length ≤ t.length :=
    (List.dropWhile_suffix _).length_le
  rw [h] at h1
  rw [← h1] at h2
  simp at h2

lemma trimLeft_append_eq_self {x y : Str} (hne : x ≠ [])
    (hx : x.dropWhile Char.isWhitespace = x) : (x ++ y).dropWhile Char.isWhitespace = x ++ y := by
  match x, hne with
  | c :: t, _ =>
    have hc : ¬ c.isWhitespace := not_ws_of_dropWhile_cons hx
    simpa using List.dropWhile_cons_of_neg (l := t ++ y) hc

lemma joinSep_last_decomp {p : QPath} {x : Str} (h : p.getLast? = some x) :
    ∃ pre : Str, joinSep p = pre ++ x := by
  induction p with
  | nil => simp at h
  | cons s rest ih =>
    cases rest with
    | nil =>
      simp at h
      exact ⟨[], by simp [joinSep, h]⟩
    | cons y q =>
      have h2 : (y :: q).getLast? = some x := by
        rw [List.getLast?_cons_cons] at h; exact h
      obtain ⟨pre, hpre⟩ := ih h2
      exact ⟨s ++ '/' :: pre, by simp [joinSep, hpre]⟩

lemma trimStr_joinSep {p : QPath} (hne : p ≠ []) (hh : p.head? ≠ some [])
    (hl : p.getLast? ≠ some []) (hc : ∀ s ∈ p, CleanSeg s) :
    trimStr (joinSep p) = joinSep p := by
  -- the first segment is nonempty and left-trimmed, so the join is
  obtain ⟨s, rest, rfl⟩ := List.exists_cons_of_ne_nil hne
  have hs : CleanSeg s := hc s (List.mem_cons_self s rest)
  have hsne : s ≠ [] := by
    intro e; exact hh (by simp [e])
  have hleft : trimLeft (joinSep (s :: rest)) = joinSep (s :: rest) := by
    cases rest with
    | nil => simpa [joinSep, trimLeft] using trimLeft_eq_self_of_trim hs.2.2.2
    | cons y q =>
      show (s ++ '/' :: joinSep (y :: q)).dropWhile Char.isWhitespace = _
      exact trimLeft_append_eq_self hsne (trimLeft_eq_self_of_trim hs.2.2.2)
  -- the last segment is nonempty and right-trimmed, so the reverse is
  obtain ⟨z, hz⟩ : ∃ z, (s :: rest).getLast? = some z := by
    cases hcase : (s :: rest).getLast? with
    | none => exact absurd (List.getLast?_eq_none_iff.mp hcase) (by simp)
    | some v => exact ⟨v, rfl⟩
  have hzc : CleanSeg z := hc z (List.mem_of_getLast?_eq_some hz)
  have hzne : z ≠ [] := fun e => hl (e ▸ hz)
  obtain ⟨pre, hpre⟩ := joinSep_last_decomp hz
  have hright : (joinSep (s :: rest)).reverse.dropWhile Char.isWhitespace
      = (joinSep (s :: rest)).reverse := by
    rw [hpre, List.reverse_append]
    refine trimLeft_append_eq_self (by simpa using hzne) ?_
    have := trimRight_eq_self_of_trim hzc.2.2.2
    exact this
  unfold trimStr
  rw [show trimLeft (joinSep (s :: rest)) = joinSep (s :: rest) from hleft, hright]
  simp

lemma mem_markSegments {p : QPath} {s : Str} (h : s ∈ markSegments p) :
    s ∈ p ∨ ∃ t ∈ p, s = '_' :: t := by
  induction p with
  | nil => simp [markSegments] at h
  | cons x rest ih =>
    cases rest with
    | nil =>
      simp [markSegments] at h
      exact Or.inl (by simp [h])
    | cons y q =>
      simp only [markSegments] at h
      rcases List.mem_cons.mp h with h1 | h2
      · exact Or.inr ⟨x, List.mem_cons_self x _, h1⟩
      · rcases ih h2 with h3 | ⟨t, ht, rfl⟩
        · exact Or.inl (List.mem_cons_of_mem x h3)
        · exact Or.inr ⟨t, List.mem_cons_of_mem x ht, rfl⟩

lemma char_not_mem_joinSep {x : Char} {p : QPath} (hx : x ≠ '/')
    (h : ∀ s ∈ p, x ∉ s) : x ∉ joinSep p := by
  induction p with
  | nil => simp [joinSep]
  | cons s rest ih =>
    cases rest with
    | nil => simpa [joinSep] using h s (List.mem_cons_self s _)
    | cons y q =>
      show x ∉ s ++ '/' :: joinSep (y :: q)
      intro hmem
      rcases List.mem_append.mp hmem with h1 | h2
      · exact h s (List.mem_cons_self s _) h1
      · rcases List.mem_cons.mp h2 with h3 | h4
        · exact hx h3
        · exact ih (fun t ht => h t (List.mem_cons_of_mem s ht)) h4

lemma star_not_mem_mark_joinSep {p : QPath} (h : ∀ s ∈ p, '*' ∉ s) :
    '*' ∉ joinSep (markSegments p) := by
  refine char_not_mem_joinSep (by decide) ?_
  intro s hs
  rcases mem_markSegments hs with h1 | ⟨t, ht, rfl⟩
  · exact h s h1
  · intro hm
    rcases List.mem_cons.mp hm with h2 | h3
    · exact absurd h2 (by decide)
    · exact h t ht h3

lemma markSegments_cons_cons (x y : Str) (q : QPath) :
    markSegments (x :: y :: q) = ('_' :: x) :: markSegments (y :: q) := by
  cases q <;> rfl

lemma markSegments_ne_nil {p : QPath} (h : p ≠ []) : markSegments p ≠ [] := by
  cases p with
  | nil => exact absurd rfl h
  | cons s rest => cases rest <;> simp [markSegments]

lemma joinSep_cons_of_ne {s : Str} {l : QPath} (h : l ≠ []) :
    joinSep (s :: l) = s ++ '/' :: joinSep l := by
  cases l with
  | nil => exact absurd rfl h
  | cons y q => rfl

lemma removeAll_marker_joinSep {p : QPath} (h : ∀ s ∈ p, '_' ∉ s) :
    removeAll '_' (joinSep (markSegments p)) = joinSep p := by
  induction p with
  | nil => rfl
  | cons x rest ih =>
    have hx : '_' ∉ x := h x (List.mem_cons_self x _)
    cases rest with
    | nil =>
      show removeAll '_' (joinSep [x]) = joinSep [x]
      exact removeAll_eq_self hx
    | cons y q =>
      have hrest : ∀ s ∈ y :: q, '_' ∉ s := fun s hs => h s (List.mem_cons_of_mem x hs)
      rw [markSegments_cons_cons,
        joinSep_cons_of_ne (markSegments_ne_nil (by simp)),
        joinSep_cons_of_ne (show (y :: q) ≠ [] by simp)]
      unfold removeAll
      rw [List.cons_append, List.filter_cons, List.filter_append, List.filter_cons]
      simp only [decide_eq_true_eq]
      rw [if_neg (by simp), if_pos (by decide)]
      have h1 : List.filter (fun c => decide (c ≠ '_')) x = x := removeAll_eq_self hx
      have h2 : List.filter (fun c => decide (c ≠ '_')) (joinSep (markSegments (y :: q)))
          = joinSep (y :: q) := ih hrest
      rw [h1, h2]

lemma splitOnChar_joinSep {p : QPath} (hne : p ≠ []) (h : ∀ s ∈ p, '/' ∉ s) :
    splitOnChar '/' (joinSep p) = p := by
  induction p with
  | nil => exact absurd rfl hne
  | cons s rest ih =>
    cases rest with
    | nil => exact splitOnChar_no_sep (h s (List.mem_cons_self s _))
    | cons y q =>
      show splitOnChar '/' (s ++ '/' :: joinSep (y :: q)) = _
      rw [splitOnChar_append (h s (List.mem_cons_self s _))]
      rw [ih (by simp) (fun t ht => h t (List.mem_cons_of_mem s ht))]

lemma qpPush_clean {p : QPath} {s : Str} (h : CleanSeg s) : qpPush p s = p ++ [s] := by
  unfold qpPush
  rw [removeAll_eq_self h.2.2.1, removeAll_eq_self h.2.1, h.2.2.2,
    splitOnChar_no_sep h.1]

lemma qpFromVec_clean {l : List Str} (h : ∀ s ∈ l, CleanSeg s) : qpFromVec l = l := by
  have key : ∀ (l : List Str) (acc : QPath), (∀ s ∈ l, CleanSeg s) →
      l.foldl qpPush acc = acc ++ l := by
    intro l
    induction l with
    | nil => intro acc _; simp
    | cons s rest ih =>
      intro acc hc
      have h1 : CleanSeg s := hc s (List.mem_cons_self s _)
      show (rest.foldl qpPush (qpPush acc s)) = acc ++ s :: rest
      rw [qpPush_clean h1, ih _ (fun t ht => hc t (List.mem_cons_of_mem s ht))]
      simp
  simpa using key l [] h

lemma trimWhitespaces_valid {p : QPath} (h : ValidQP p) : trimWhitespaces p = p := by
  obtain ⟨hne, hh, hl, hc⟩ := h
  obtain ⟨s, rest, rfl⟩ := List.exists_cons_of_ne_nil hne
  have hsne : ¬ s = [] := fun e => hh (by simp [e])
  unfold trimWhitespaces
  simp only [if_neg hsne]
  rw [if_neg hl]
  exact qpFromVec_clean hc

/-- Branch round-trip on the valid domain: parsing the branch form of a valid
relative, non-directory path with clean segments recovers the path. -/
lemma branch_roundtrip_valid {p : QPath} (h : ValidQP p) :
    qpFromStr (toGitBranch p) = p := by
  have htw : trimWhitespaces p = p := trimWhitespaces_valid h
  obtain ⟨hne, hh, hl, hc⟩ := h
  obtain ⟨s, rest, rfl⟩ := List.exists_cons_of_ne_nil hne
  cases rest with
  | nil =>
    have h1 : toGitBranch [s] = s := by unfold toGitBranch; rw [htw]
    rw [h1]
    show qpPush [] s = [s]
    rw [qpPush_clean (hc s (List.mem_cons_self s _))]
    rfl
  | cons y q =>
    have h1 : toGitBranch (s :: y :: q) = joinSep (markSegments (s :: y :: q)) := by
      unfold toGitBranch; rw [htw]
    rw [h1]
    show qpPush [] (joinSep (markSegments (s :: y :: q))) = s :: y :: q
    unfold qpPush
    have hstar : removeAll '*' (joinSep (markSegments (s :: y :: q)))
        = joinSep (markSegments (s :: y :: q)) :=
      removeAll_eq_self (star_not_mem_mark_joinSep (fun t ht => (hc t ht).2.2.1))
    have hmark : removeAll '_' (joinSep (markSegments (s :: y :: q)))
        = joinSep (s :: y :: q) :=
      removeAll_marker_joinSep (fun t ht => (hc t ht).2.1)
    have htrim : trimStr (joinSep (s :: y :: q)) = joinSep (s :: y :: q) :=
      trimStr_joinSep (by simp) hh hl hc
    have hsplit : splitOnChar '/' (joinSep (s :: y :: q)) = s :: y :: q :=
      splitOnChar_joinSep (by simp) (fun t ht => (hc t ht).1)
    rw [hstar, hmark, htrim, hsplit]
    rfl

lemma addLoop_eq_normLoop :
    ∀ (parts : List Str) (i len : Nat) (path : QPath),
      i + parts.length = len →
      (∀ s ∈ parts, CleanSeg s) →
      (∀ s ∈ parts.dropLast, s ≠ []) →
      addLoop parts i len path path.length = normLoop parts path := by
  intro parts
  induction parts with
  | nil => intro i len path _ _ _; rfl
  | cons s rest ih =>
    intro i len path hlen hc hd
    have hcrest : ∀ t ∈ rest, CleanSeg t := fun t ht => hc t (List.mem_cons_of_mem s ht)
    have hdrest : ∀ t ∈ rest.dropLast, t ≠ [] := by
      intro t ht
      cases hr : rest with
      | nil => rw [hr] at ht; simp at ht
      | cons y q =>
        refine hd t ?_
        rw [hr]
        rw [hr] at ht
        exact List.mem_cons_of_mem s ht
    have hlen2 : (i + 1) + rest.length = len := by
      simpa [Nat.add_comm, Nat.add_assoc, Nat.add_left_comm] using hlen
    by_cases hdot : s = ['.']
    · rw [show addLoop (s :: rest) i len path path.length
          = addLoop rest (i + 1) len path path.length by
            rw [addLoop]; rw [if_pos hdot],
        show normLoop (s :: rest) path = normLoop rest path by
            rw [normLoop]; rw [if_pos hdot]]
      exact ih (i + 1) len path hlen2 hcrest hdrest
    · by_cases hdd : s = ['.', '.']
      · rw [show addLoop (s :: rest) i len path path.length
            = if path.length > 0 then
                addLoop rest (i + 1) len (path.take (path.length - 1)) (path.length - 1)
              else addLoop rest (i + 1) len path path.length by
              rw [addLoop]; rw [if_neg hdot, if_pos hdd],
          show normLoop (s :: rest) path = normLoop rest path.dropLast by
              rw [normLoop]; rw [if_neg hdot, if_pos hdd]]
        by_cases hp : path.length > 0
        · rw [if_pos hp]
          rw [← List.dropLast_eq_take]
          have hlast : path.dropLast.length = path.length - 1 := by
            simp [List.length_dropLast]
          rw [← hlast]
          exact ih (i + 1) len path.dropLast hlen2 hcrest hdrest
        · rw [if_neg hp]
          have hpe : path = [] := List.length_eq_zero.mp (by omega)
          rw [hpe]
          simpa using ih (i + 1) len [] hlen2 hcrest hdrest
      · by_cases hemp : s = []
        · have hrest : rest = [] := by
            cases hr : rest with
            | nil => rfl
            | cons y q =>
              exfalso
              refine hd s ?_ hemp
              rw [hr]
              exact List.mem_cons_self s _
          subst hrest
          subst hemp
          have hi : i = len - 1 := by simp at hlen; omega
          rw [show addLoop [[]] i len path path.length = qpPush path [] by
              rw [addLoop]
              rw [if_neg hdot, if_neg hdd, if_pos (Or.inl hi)]
              rfl,
            show normLoop [[]] path = path ++ [[]] by
              rw [normLoop]
              rw [if_neg hdot, if_neg hdd]
              rfl]
          rfl
        · rw [show addLoop (s :: rest) i len path path.length
              = addLoop rest (i + 1) len (qpPush path s) (path.length + 1) by
                rw [addLoop]; rw [if_neg hdot, if_neg hdd, if_neg hemp],
            show normLoop (s :: rest) path = normLoop rest (path ++ [s]) by
                rw [normLoop]; rw [if_neg hdot, if_neg hdd, if_neg hemp]]
          rw [qpPush_clean (hc s (List.mem_cons_self s _))]
          have : (path ++ [s]).length = path.length + 1 := by simp
          rw [← this]
          exact ih (i + 1) len (path ++ [s]) hlen2 hcrest hdrest

-- Sanity checks mirroring the Rust unit tests of `qualified_path.rs`.
example : qpFromStr "foo/bar".toList = ["foo".toList, "bar".toList] := by decide

example : qpFromStr "/foo/bar".toList = [[], "foo".toList, "bar".toList] := by decide

example : qpFromStr "foo/".toList = ["foo".toList, []] := by decide

example : qpFromStr "/".toList = [[], []] := by decide

example : qpFromStr "_foo/bar".toList = ["foo".toList, "bar".toList] := by decide

example : qpFromStr "_foo/_bar/baz".toList = ["foo".toList, "bar".toList, "baz".toList] := by
  decide

example : toGitBranch (qpFromStr "foo/bar".toList) = "_foo/bar".toList := by decide

example : toGitBranch (qpFromStr "/foo/bar".toList) = "_foo/bar".toList := by decide

example : qpAdd (qpFromStr "".toList) (qpFromStr "bar/baz".toList)
    = [[], "bar".toList, "baz".toList] := by decide

example : qpAdd (qpFromStr "foo".toList) (qpFromStr "bar/baz".toList)
    = qpFromStr "foo/bar/baz".toList := by decide

example : qpAdd (qpFromStr "foo/".toList) (qpFromStr "bar/baz".toList)
    = qpFromStr "foo/bar/baz".toList := by decide

example : qpAdd (qpFromStr "foo".toList) (qpFromStr "..".toList) = [] := by decide

example : qpAdd (qpFromStr "foo".toList) (qpFromStr "./bar".toList)
    = qpFromStr "foo/bar".toList := by decide

example : qpAdd (qpFromStr "foo".toList) (qpFromStr "./".toList)
    = qpFromStr "foo/".toList := by decide

example : qpAdd (qpFromStr "foo".toList) (qpFromStr "../bar".toList)
    = qpFromStr "bar".toList := by decide

example : qpAdd (qpFromStr "foo/bar".toList) (qpFromStr "../baz".toList)
    = qpFromStr "foo/baz".toList := by decide

example : qpAdd (qpFromStr "foo/bar".toList) (qpFromStr "../../baz".toList)
    = qpFromStr "baz".toList := by decide

example : qpAdd (qpFromStr "foo/bar".toList) (qpFromStr "../../../../../../baz".toList)
    = qpFromStr "baz".toList := by decide

example : qpAdd (qpFromStr "foo/bar".toList) (qpFromStr "baz/../baz/../baz/../baz".toList)
    = qpFromStr "foo/bar/baz".toList := by decide

example : qpAdd (qpFromStr "foo/bar".toList) (qpFromStr "../baz/../baz/../baz".toList)
    = qpFromStr "foo/baz".toList := by decide

example : qpAdd (qpFromStr "foo".toList) (qpFromStr "".toList)
    = qpFromStr "foo/".toList := by decide

example : qpAdd (qpFromStr "foo".toList) (qpFromStr "/bar/baz".toList)
    = qpFromStr "/bar/baz".toList := by decide

/-- Claim C2, counterexample: the absolute qualified path `/foo/bar` is a
valid qualified path (an empty first segment marks an absolute path), but
`to_git_branch` trims the leading empty segment, so parsing the branch form
back with `QualifiedPath::from`/`push` yields the relative path `foo/bar`,
not the original: the round-trip fails on absolute paths. -/
theorem c2_branch_roundtrip_counterexample :
    qpIsAbsolute (qpFromStr "/foo/bar".toList) ∧
    toGitBranch (qpFromStr "/foo/bar".toList) = "_foo/bar".toList ∧
    qpFromStr (toGitBranch (qpFromStr "/foo/bar".toList)) = ["foo".toList, "bar".toList] ∧
    qpFromStr (toGitBranch (qpFromStr "/foo/bar".toList)) ≠ qpFromStr "/foo/bar".toList := by
  refine ⟨by decide, by decide, by decide, by decide⟩

/-- Claim C2 (amended): for every qualified path that is nonempty, relative
(no leading empty segment), not a directory reference (no trailing empty
segment), and whose segments contain no separator, no marker characters and
no surrounding whitespace — exactly the paths produced by parsing a branch
name — converting to the backend branch form with
`QualifiedPath::to_git_branch` and parsing back with
`QualifiedPath::from`/`push` recovers the original path. -/
theorem c2_branch_roundtrip (p : QPath) (h : ValidQP p) :
    qpFromStr (toGitBranch p) = p :=
  branch_roundtrip_valid h

/-- Witness for claim C2 at the concrete path `foo/bar`. -/
theorem c2_branch_roundtrip_witness :
    ValidQP (qpFromStr "foo/bar".toList) ∧
    qpFromStr (toGitBranch (qpFromStr "foo/bar".toList)) = qpFromStr "foo/bar".toList :=
  ⟨by decide, c2_branch_roundtrip _ (by decide)⟩

/-- Claim C3, counterexample: for the directory reference `foo/` and the
relative path `..`, the code first strips the trailing empty segment but the
`next_index` counter still holds the original length, so the `..` truncation
is a no-op beyond the stripped marker: `foo/ + ..` evaluates to `foo`,
while the filesystem-style normalized join pops the remaining segment and
yields the empty path. -/
theorem c3_add_normalized_join_counterexample :
    qpAdd (qpFromStr "foo/".toList) (qpFromStr "..".toList) = ["foo".toList] ∧
    normJoin (qpFromStr "foo/".toList) (qpFromStr "..".toList) = [] ∧
    qpAdd (qpFromStr "foo/".toList) (qpFromStr "..".toList)
      ≠ normJoin (qpFromStr "foo/".toList) (qpFromStr "..".toList) := by
  refine ⟨by decide, by decide, by decide⟩

/-- Claim C3 (amended): `a + b` equals the filesystem-style normalized join —
leading (indeed any) `.` segments of `b` are no-ops, each `..` pops one
segment clamped at zero without erroring, an absolute `b` replaces `a`
entirely, and an empty final segment of `b` marks a directory reference —
provided `a` is not itself a directory reference (trailing empty segment) and
the segments of `b` are clean with no empty interior segment.  When `a` is a
directory reference the stale `next_index` makes `..` popping lag one segment
behind the normalized join (see the counterexample). -/
theorem c3_add_normalized_join (a b : QPath)
    (ha : ¬ qpIsDir a)
    (hb1 : ∀ s ∈ b, CleanSeg s)
    (hb2 : ∀ s ∈ (b.drop 1).dropLast, s ≠ []) :
    qpAdd a b = normJoin a b := by
  have hstrip : ¬ (a.getLast? = some [] ∧ a.length > 1) := by
    intro hcontra
    exact ha ⟨hcontra.2, hcontra.1⟩
  unfold qpAdd normJoin
  rw [if_neg hstrip, if_neg hstrip]
  cases b with
  | nil => rfl
  | cons s rest =>
    show (if s = [] ∧ (s :: rest).length > 1 then s :: rest
          else addLoop (s :: rest) 0 (s :: rest).length a a.length)
        = if (s :: rest).head? = some [] ∧ (s :: rest).length > 1 then s :: rest
          else normLoop (s :: rest) a
    by_cases habs : s = [] ∧ (s :: rest).length > 1
    · rw [if_pos habs, if_pos (by simpa using habs)]
    · rw [if_neg habs, if_neg (by simpa using habs)]
      refine addLoop_eq_normLoop (s :: rest) 0 (s :: rest).length a (by simp) hb1 ?_
      intro t ht
      cases hr : rest with
      | nil => rw [hr] at ht; simp at ht
      | cons y q =>
        rw [hr] at ht
        rcases List.mem_cons.mp ht with h1 | h2
        · subst h1
          intro he
          exact habs ⟨he, by simp [hr]⟩
        · refine hb2 t ?_
          simpa [hr] using h2

/-- Witness for claim C3 at the specification's own example
`foo/bar + ../../../baz = baz`. -/
theorem c3_add_normalized_join_witness :
    qpAdd (qpFromStr "foo/bar".toList) (qpFromStr "../../../baz".toList)
      = normJoin (qpFromStr "foo/bar".toList) (qpFromStr "../../../baz".toList) ∧
    qpAdd (qpFromStr "foo/bar".toList) (qpFromStr "../../../baz".toList)
      = ["baz".toList] :=
  ⟨c3_add_normalized_join _ _ (by decide) (by decide) (by decide), by decide⟩

lemma growTotal_mono {t : List FeatureMetadata} {fs : List FeatureMetadata} :
    t <+: growTotal t fs := by
  induction fs generalizing t with
  | nil => exact List.prefix_rfl
  | cons f rest ih =>
    show t <+: growTotal (if f ∈ t then t else t ++ [f]) rest
    by_cases hf : f ∈ t
    · rw [if_pos hf]; exact ih
    · rw [if_neg hf]
      exact List.IsPrefix.trans (List.prefix_append t [f]) ih

lemma mem_growTotal_left {t : List FeatureMetadata} {fs : List FeatureMetadata}
    {x : FeatureMetadata} (h : x ∈ t) : x ∈ growTotal t fs :=
  growTotal_mono.subset h

lemma mem_growTotal_right {t : List FeatureMetadata} {fs : List FeatureMetadata}
    {x : FeatureMetadata} (h : x ∈ fs) : x ∈ growTotal t fs := by
  induction fs generalizing t with
  | nil => simp at h
  | cons f rest ih =>
    rcases List.mem_cons.mp h with h1 | h2
    · subst h1
      show x ∈ growTotal (if x ∈ t then t else t ++ [x]) rest
      refine mem_growTotal_left ?_
      by_cases hf : x ∈ t
      · rwa [if_pos hf]
      · rw [if_neg hf]; simp
    · exact ih h2

lemma markStep_total (m : DerivationMetadata) (f : QPath) :
    (markStep m f).total = m.total := by
  unfold markStep
  cases m.missing.find? (fun fm => fmQualifiedPath fm = f) <;> rfl

lemma markStep_inv {m : DerivationMetadata} (h : dmInv m) (f : QPath) :
    dmInv (markStep m f) := by
  obtain ⟨hct, hmt, hdis⟩ := h
  unfold markStep
  cases hfind : m.missing.find? (fun fm => fmQualifiedPath fm = f) with
  | none => exact ⟨hct, hmt, hdis⟩
  | some fm =>
    have hfm_mem : fm ∈ m.missing := List.mem_of_find?_eq_some hfind
    have hfm_eq : fmQualifiedPath fm = f := by
      have := List.find?_some hfind
      simpa using this
    refine ⟨?_, ?_, ?_⟩
    · intro x hx
      rcases List.mem_append.mp hx with h1 | h2
      · exact hct x h1
      · simp at h2
        rw [h2]
        exact hmt fm hfm_mem
    · intro x hx
      exact hmt x (List.mem_of_mem_filter hx)
    · intro x hx hmem
      have hxf : ¬ fmQualifiedPath x = f := by
        have := List.of_mem_filter hmem
        simpa using this
      rcases List.mem_append.mp hx with h1 | h2
      · exact hdis x h1 (List.mem_of_mem_filter hmem)
      · simp at h2
        exact hxf (by rw [h2]; exact hfm_eq)

lemma markAsCompleted_inv {m : DerivationMetadata} (h : dmInv m) (fs : List QPath) :
    dmInv (markAsCompleted m fs) := by
  induction fs generalizing m with
  | nil => exact h
  | cons f rest ih => exact ih (markStep_inv h f)

lemma markAsCompleted_total (m : DerivationMetadata) (fs : List QPath) :
    (markAsCompleted m fs).total = m.total := by
  induction fs generalizing m with
  | nil => rfl
  | cons f rest ih =>
    show (markAsCompleted (markStep m f) rest).total = m.total
    rw [ih (markStep m f), markStep_total]

/-- Claim C6: every `DerivationMetadata` produced or mutated by
`new_initial`, `new_from_previously_finished`, `mark_as_completed`,
`as_in_progress` and `as_finished` satisfies completed ∩ missing = ∅ and
completed ∪ missing ⊆ total; `total` only grows (it is extended, as a prefix,
only by `new_from_previously_finished` and is untouched by every other
operation), and deriving from a record whose state is not `Finished` is a
programming error (the Rust panic, modelled as `none`). -/
theorem c6_metadata_invariants :
    (∀ id features, dmInv (newInitial id features)) ∧
    (∀ id prev features m2, newFromPreviouslyFinished id prev features = some m2 →
      dmInv m2 ∧ prev.total <+: m2.total) ∧
    (∀ id prev features, stateFromString prev.state ≠ some DerivationState.finished →
      newFromPreviouslyFinished id prev features = none) ∧
    (∀ m features, dmInv m →
      dmInv (markAsCompleted m features) ∧ (markAsCompleted m features).total = m.total) ∧
    (∀ m, dmInv m → dmInv (asFinished m) ∧ (asFinished m).total = m.total) ∧
    (∀ m, dmInv m → dmInv (asInProgress m) ∧ (asInProgress m).total = m.total) := by
  refine ⟨?_, ?_, ?_, ?_, ?_, ?_⟩
  · intro id features
    exact ⟨by simp [newInitial, dmNew], fun x hx => hx, by simp [newInitial, dmNew]⟩
  · intro id prev features m2 h
    unfold newFromPreviouslyFinished at h
    cases hs : stateFromString prev.state with
    | none => rw [hs] at h; exact absurd h (by simp)
    | some st =>
      cases st with
      | starting => rw [hs] at h; exact absurd h (by simp)
      | inProgress => rw [hs] at h; exact absurd h (by simp)
      | finished =>
        rw [hs] at h
        have h2 : m2 = dmNew id DerivationState.starting [] features
            (growTotal prev.total features) := by
          cases h; rfl
        subst h2
        refine ⟨⟨by simp [dmNew], ?_, by simp [dmNew]⟩, growTotal_mono⟩
        intro x hx
        exact mem_growTotal_right hx
  · intro id prev features h
    unfold newFromPreviouslyFinished
    cases hs : stateFromString prev.state with
    | none => rfl
    | some st =>
      cases st with
      | starting => rfl
      | inProgress => rfl
      | finished => exact absurd hs h
  · intro m features h
    exact ⟨markAsCompleted_inv h features, markAsCompleted_total m features⟩
  · intro m h
    exact ⟨h, rfl⟩
  · intro m h
    exact ⟨h, rfl⟩

/-- Witness for claim C6: the invariant-preservation conjunct applied to a
concrete record and feature list. -/
theorem c6_metadata_invariants_witness :
    dmInv (newInitial "id0".toList [⟨"a".toList⟩, ⟨"b".toList⟩]) ∧
    dmInv (markAsCompleted (newInitial "id0".toList [⟨"a".toList⟩, ⟨"b".toList⟩])
      [qpFromStr "a".toList]) :=
  ⟨c6_metadata_invariants.1 _ _,
    (c6_metadata_invariants.2.2.2.1 (newInitial "id0".toList [⟨"a".toList⟩, ⟨"b".toList⟩])
      [qpFromStr "a".toList] (by decide)).1⟩

/-- Claim C8: the Continue operation always returns an error when no
derivation record exists or when the latest record's state is Finished,
regardless of what preceded it. -/
theorem c8_continue_errors (ls : Option DerivationMetadata)
    (h : ls = none ∨ ∃ m, ls = some m ∧
      stateFromString m.state = some DerivationState.finished) :
    ∃ e, handleContinue ls true = some (Except.error e) := by
  rcases h with h1 | ⟨m, rfl, hs⟩
  · subst h1
    exact ⟨ContinueError.notStarted, rfl⟩
  · refine ⟨ContinueError.finishedAlready, ?_⟩
    simp [handleContinue, hs]

/-- Witness for claim C8: Continue with no record, and Continue on a concrete
Finished record, both error. -/
theorem c8_continue_errors_witness :
    (∃ e, handleContinue none true = some (Except.error e)) ∧
    ∃ e, handleContinue
        (some (asFinished (newInitial "id0".toList [⟨"a".toList⟩]))) true
      = some (Except.error e) :=
  ⟨c8_continue_errors none (Or.inl rfl),
    c8_continue_errors _ (Or.inr ⟨_, rfl, by decide⟩)⟩

lemma stripLead_append (p s : Str) : stripLead p (p ++ s) = some s := by
  induction p with
  | nil => rfl
  | cons c cs ih =>
    show stripLead (c :: cs) (c :: (cs ++ s)) = some s
    rw [stripLead]
    rw [if_pos rfl]
    exact ih

lemma stripLead_self (p : Str) : stripLead p p = some [] := by
  have := stripLead_append p []
  simpa using this

lemma stripLead_mem {p s r : Str} (h : stripLead p s = some r) : ∀ x ∈ p, x ∈ s := by
  induction p generalizing s with
  | nil => intro x hx; simp at hx
  | cons c cs ih =>
    intro x hx
    cases s with
    | nil => simp [stripLead] at h
    | cons d ds =>
      rw [stripLead] at h
      by_cases hcd : c = d
      · rw [if_pos hcd] at h
        rcases List.mem_cons.mp hx with h1 | h2
        · subst h1
          rw [hcd]
          exact List.mem_cons_self d ds
        · exact List.mem_cons_of_mem d (ih h x h2)
      · rw [if_neg hcd] at h
        exact absurd h (by simp)

lemma pjsb_quote (r : Str) : parseJsonStrBody ('"' :: r) = some ([], r) := by
  rw [parseJsonStrBody.eq_def]
  simp only []
  rw [if_true]

lemma pjsb_esc (d : Char) (rest : Str) :
    parseJsonStrBody ('\\' :: (d :: rest))
      = match parseJsonStrBody rest with
        | some (content, after) => some (d :: content, after)
        | none => none := by
  rw [parseJsonStrBody.eq_def]
  simp only []
  rw [if_true]
  rw [if_neg (by decide)]

lemma pjsb_other {c : Char} (hc1 : ¬ c = '"') (hc2 : ¬ c = '\\') (rest : Str) :
    parseJsonStrBody (c :: rest)
      = match parseJsonStrBody rest with
        | some (content, after) => some (c :: content, after)
        | none => none := by
  rw [parseJsonStrBody.eq_def]
  simp only []
  rw [if_neg hc1, if_neg hc2]

lemma parseJsonStrBody_round (s r : Str) :
    parseJsonStrBody (jsonEscape s ++ ('"' :: r)) = some (s, r) := by
  induction s generalizing r with
  | nil =>
    show parseJsonStrBody ('"' :: r) = some ([], r)
    exact pjsb_quote r
  | cons c t ih =>
    by_cases hc : c = '"' ∨ c = '\\'
    · have h1 : jsonEscape (c :: t) = '\\' :: c :: jsonEscape t := by
        rw [jsonEscape, if_pos hc]; rfl
      rw [h1]
      show parseJsonStrBody ('\\' :: (c :: (jsonEscape t ++ ('"' :: r)))) = some (c :: t, r)
      rw [pjsb_esc, ih r]
    · have h1 : jsonEscape (c :: t) = c :: jsonEscape t := by
        rw [jsonEscape, if_neg hc]; rfl
      rw [h1]
      push_neg at hc
      show parseJsonStrBody (c :: (jsonEscape t ++ ('"' :: r))) = some (c :: t, r)
      rw [pjsb_other hc.1 hc.2, ih r]

lemma parseFMItem_round (fm : FeatureMetadata) (r : Str) :
    parseFMItem (jsonFM fm ++ r) = some (fm, r) := by
  have hlit : ("\x7b\"path\":\"".toList : Str) = "\x7b\"path\":".toList ++ ['"'] := by decide
  have harg : jsonFM fm ++ r
      = "\x7b\"path\":\"".toList
        ++ (jsonEscape fm.path ++ ('"' :: ("\x7d".toList ++ r))) := by
    rw [hlit]
    simp [jsonFM, jsonStr]
  rw [harg]
  unfold parseFMItem
  rw [stripLead_append]
  simp only []
  rw [parseJsonStrBody_round]
  simp only []
  rw [stripLead_append]

lemma jsonFM_head (fm : FeatureMetadata) :
    ∃ t, jsonFM fm = '\x7b' :: t := by
  have hlit : ("\x7b\"path\":".toList : Str) = '\x7b' :: "\"path\":".toList := by decide
  refine ⟨"\"path\":".toList ++ (jsonStr fm.path ++ "\x7d".toList), ?_⟩
  rw [jsonFM, hlit]
  simp

lemma jsonFMItems_length (fms : List FeatureMetadata) :
    fms.length ≤ (jsonFMItems fms).length := by
  induction fms with
  | nil => simp [jsonFMItems]
  | cons fm rest ih =>
    obtain ⟨t, ht⟩ := jsonFM_head fm
    cases rest with
    | nil => simp [jsonFMItems, ht]
    | cons y q =>
      have h1 : jsonFMItems (fm :: y :: q) = jsonFM fm ++ ',' :: jsonFMItems (y :: q) := rfl
      rw [h1, ht]
      simp only [List.length_append, List.length_cons]
      simp only [List.length_cons] at ih ⊢
      omega

lemma parseFMItemsSucc (f : Nat) (s : Str) :
    parseFMItems (f + 1) s
      = match parseFMItem s with
        | none => none
        | some (fm, r) =>
          match r with
          | c :: r2 =>
            if c = ',' then
              match parseFMItems f r2 with
              | some (l, r3) => some (fm :: l, r3)
              | none => none
            else some ([fm], c :: r2)
          | [] => some ([fm], []) := by
  rw [parseFMItems.eq_def]

lemma parseFMItems_round (fms : List FeatureMetadata) :
    ∀ (fuel : Nat) (r : Str), fms ≠ [] → fms.length ≤ fuel →
      parseFMItems fuel (jsonFMItems fms ++ (']' :: r)) = some (fms, ']' :: r) := by
  induction fms with
  | nil => intro fuel r hne _; exact absurd rfl hne
  | cons fm rest ih =>
    intro fuel r _ hfuel
    cases fuel with
    | zero => simp at hfuel
    | succ f =>
      cases rest with
      | nil =>
        show parseFMItems (f + 1) (jsonFM fm ++ (']' :: r)) = some ([fm], ']' :: r)
        rw [parseFMItemsSucc, parseFMItem_round]
        simp only []
        rw [if_neg (by decide)]
      | cons y q =>
        have h1 : jsonFMItems (fm :: y :: q) ++ (']' :: r)
            = jsonFM fm ++ (',' :: (jsonFMItems (y :: q) ++ (']' :: r))) := by
          show (jsonFM fm ++ ',' :: jsonFMItems (y :: q)) ++ (']' :: r) = _
          simp
        rw [h1, parseFMItemsSucc, parseFMItem_round]
        simp only []
        rw [if_true]
        rw [ih f r (by simp) (by simp only [List.length_cons] at hfuel ⊢; omega)]

lemma parseFMList_round (l : List FeatureMetadata) (r : Str) :
    parseFMList (jsonFMList l ++ r) = some (l, r) := by
  cases l with
  | nil =>
    show parseFMList ('[' :: (']' :: r)) = some ([], r)
    unfold parseFMList
    simp only []
    rw [if_true]
    rw [if_true]
  | cons fm fms =>
    obtain ⟨t, ht⟩ := jsonFM_head fm
    have hitems : ∃ u, jsonFMItems (fm :: fms) = '\x7b' :: u := by
      cases fms with
      | nil => exact ⟨t, by simpa [jsonFMItems] using ht⟩
      | cons y q =>
        refine ⟨t ++ ',' :: jsonFMItems (y :: q), ?_⟩
        show jsonFM fm ++ ',' :: jsonFMItems (y :: q) = _
        rw [ht]
        simp
    obtain ⟨u, hu⟩ := hitems
    have h2 : jsonFMItems (fm :: fms) ++ (']' :: r) = '\x7b' :: (u ++ (']' :: r)) := by
      rw [hu]; simp
    have harg : jsonFMList (fm :: fms) ++ r
        = '[' :: ('\x7b' :: (u ++ (']' :: r))) := by
      show ('[' :: (jsonFMItems (fm :: fms) ++ [']'])) ++ r = _
      simp only [List.cons_append, List.append_assoc, List.singleton_append, List.nil_append]
      rw [h2]
    rw [harg]
    unfold parseFMList
    simp only []
    rw [if_true]
    rw [if_neg (by decide)]
    have hlen : (fm :: fms).length ≤ ('\x7b' :: (u ++ (']' :: r))).length := by
      have h3 := jsonFMItems_length (fm :: fms)
      have h4 : (jsonFMItems (fm :: fms)).length
          ≤ (jsonFMItems (fm :: fms) ++ (']' :: r)).length := by simp
      rw [h2] at h4
      omega
    have hparse := parseFMItems_round (fm :: fms) ('\x7b' :: (u ++ (']' :: r))).length r
      (by simp) hlen
    rw [h2] at hparse
    rw [hparse]
    simp only []
    rw [if_true]

lemma parseMetadata_round (m : DerivationMetadata) :
    parseMetadata (jsonMetadata m) = some m := by
  have h1 : ("\x7b\"id\":\"".toList : Str) = "\x7b\"id\":".toList ++ ['"'] := by decide
  have h2 : (",\"state\":\"".toList : Str) = ",\"state\":".toList ++ ['"'] := by decide
  have harg : jsonMetadata m
      = "\x7b\"id\":\"".toList ++ (jsonEscape m.id ++ ('"' :: (",\"state\":\"".toList
        ++ (jsonEscape m.state ++ ('"' :: (",\"completed\":".toList
        ++ (jsonFMList m.completed ++ (",\"missing\":".toList
        ++ (jsonFMList m.missing ++ (",\"total\":".toList
        ++ (jsonFMList m.total ++ "\x7d".toList))))))))))) := by
    rw [h1, h2]
    simp [jsonMetadata, jsonStr]
  rw [harg]
  unfold parseMetadata
  simp only [Option.pure_def, Option.bind_eq_bind]
  rw [stripLead_append]
  simp only [Option.some_bind]
  rw [parseJsonStrBody_round]
  simp only [Option.some_bind]
  rw [stripLead_append]
  simp only [Option.some_bind]
  rw [parseJsonStrBody_round]
  simp only [Option.some_bind]
  rw [stripLead_append]
  simp only [Option.some_bind]
  rw [parseFMList_round]
  simp only [Option.some_bind]
  rw [stripLead_append]
  simp only [Option.some_bind]
  rw [parseFMList_round]
  simp only [Option.some_bind]
  rw [stripLead_append]
  simp only [Option.some_bind]
  rw [parseFMList_round]
  simp only [Option.some_bind]
  rw [stripLead_self]
  simp only [Option.some_bind]

lemma leadsWith_append (p x : Str) : leadsWith p (p ++ x) = true := by
  induction p with
  | nil => rfl
  | cons c cs ih =>
    show (c = c && leadsWith cs (cs ++ x)) = true
    simp [ih]

lemma containsSub_of_leads {s pat : Str} (h : leadsWith pat s = true) :
    containsSub s pat = true := by
  cases s with
  | nil => exact h
  | cons c rest =>
    show (leadsWith pat (c :: rest) || containsSub rest pat) = true
    simp [h]

lemma replaceAllFuel_no_occurrence {pat rep : Str} {x : Char} (hx : x ∈ pat) :
    ∀ (s : Str) (fuel : Nat), x ∉ s → s.length ≤ fuel →
      replaceAllFuel pat rep fuel s = s := by
  intro s
  induction s with
  | nil =>
    intro fuel _ _
    cases fuel with
    | zero => rfl
    | succ f =>
      obtain ⟨c, cs, rfl⟩ := List.exists_cons_of_ne_nil (show pat ≠ [] from fun e => by
        rw [e] at hx; simp at hx)
      rfl
  | cons c s2 ih =>
    intro fuel hs hlen
    cases fuel with
    | zero => simp at hlen
    | succ f =>
      have hstrip : stripLead pat (c :: s2) = none := by
        cases hcase : stripLead pat (c :: s2) with
        | none => rfl
        | some r => exact absurd (stripLead_mem hcase x hx) hs
      show replaceAllFuel pat rep (f + 1) (c :: s2) = c :: s2
      rw [replaceAllFuel.eq_def]
      simp only []
      rw [hstrip]
      simp only []
      rw [ih f (fun m => hs (List.mem_cons_of_mem c m)) (by simp at hlen; omega)]

lemma replaceAll_strip_sentinel {pat s : Str} {x : Char} (hx : x ∈ pat) (hs : x ∉ s) :
    replaceAll pat [] (pat ++ s) = s := by
  unfold replaceAll
  have hne : pat ≠ [] := fun e => by rw [e] at hx; simp at hx
  have h1 : (pat ++ s).length + 1 = (pat.length + s.length) + 1 := by simp
  rw [h1]
  rw [replaceAllFuel.eq_def]
  simp only []
  rw [stripLead_append]
  simp only [if_neg hne, List.nil_append]
  exact replaceAllFuel_no_occurrence hx s (pat.length + s.length) hs (by omega)

lemma ncc_append {a b : Str} (ha : NoControlChars a) (hb : NoControlChars b) :
    NoControlChars (a ++ b) := by
  intro c hc
  rcases List.mem_append.mp hc with h | h
  · exact ha c h
  · exact hb c h

lemma ncc_cons {c : Char} {s : Str} (hc : 32 ≤ c.toNat) (hs : NoControlChars s) :
    NoControlChars (c :: s) := by
  intro d hd
  rcases List.mem_cons.mp hd with h | h
  · rw [h]; exact hc
  · exact hs d h

lemma ncc_jsonEscape {s : Str} (h : NoControlChars s) : NoControlChars (jsonEscape s) := by
  induction s with
  | nil => intro c hc; simp [jsonEscape] at hc
  | cons c t ih =>
    have hc : 32 ≤ c.toNat := h c (List.mem_cons_self c t)
    have ht : NoControlChars t := fun d hd => h d (List.mem_cons_of_mem c hd)
    intro d hd
    rw [jsonEscape] at hd
    rcases List.mem_append.mp hd with h1 | h2
    · by_cases hesc : c = '"' ∨ c = '\\'
      · rw [if_pos hesc] at h1
        rcases List.mem_cons.mp h1 with h3 | h4
        · rw [h3]; decide
        · simp at h4; rw [h4]; exact hc
      · rw [if_neg hesc] at h1
        simp at h1; rw [h1]; exact hc
    · exact ih ht d h2

lemma ncc_jsonStr {s : Str} (h : NoControlChars s) : NoControlChars (jsonStr s) := by
  refine ncc_cons (by decide) (ncc_append (ncc_jsonEscape h) ?_)
  intro c hc; simp at hc; rw [hc]; decide

lemma ncc_jsonFM {fm : FeatureMetadata} (h : NoControlChars fm.path) :
    NoControlChars (jsonFM fm) := by
  refine ncc_append (ncc_append (by decide) (ncc_jsonStr h)) (by decide)

lemma ncc_jsonFMItems {l : List FeatureMetadata}
    (h : ∀ fm ∈ l, NoControlChars fm.path) : NoControlChars (jsonFMItems l) := by
  induction l with
  | nil => intro c hc; simp [jsonFMItems] at hc
  | cons fm rest ih =>
    have h1 : NoControlChars (jsonFM fm) := ncc_jsonFM (h fm (List.mem_cons_self fm rest))
    have h2 : NoControlChars (jsonFMItems rest) :=
      ih (fun g hg => h g (List.mem_cons_of_mem fm hg))
    cases rest with
    | nil => exact h1
    | cons y q =>
      show NoControlChars (jsonFM fm ++ ',' :: jsonFMItems (y :: q))
      exact ncc_append h1 (ncc_cons (by decide) h2)

lemma ncc_jsonFMList {l : List FeatureMetadata}
    (h : ∀ fm ∈ l, NoControlChars fm.path) : NoControlChars (jsonFMList l) := by
  refine ncc_cons (by decide) (ncc_append (ncc_jsonFMItems h) ?_)
  intro c hc; simp at hc; rw [hc]; decide

lemma ncc_jsonMetadata {m : DerivationMetadata} (h : dmCleanStrings m) :
    NoControlChars (jsonMetadata m) := by
  obtain ⟨h1, h2, h3, h4, h5⟩ := h
  unfold jsonMetadata
  refine ncc_append (ncc_append (ncc_append (ncc_append (ncc_append (ncc_append
    (ncc_append (ncc_append (ncc_append (ncc_append (by decide) (ncc_jsonStr h1))
      (by decide)) (ncc_jsonStr h2)) (by decide)) (ncc_jsonFMList h3)) (by decide))
      (ncc_jsonFMList h4)) (by decide)) (ncc_jsonFMList h5)) (by decide)

lemma newline_not_mem {s : Str} (h : NoControlChars s) : '\n' ∉ s := by
  intro hmem
  have := h '\n' hmem
  simp at this

/-- Claim C7: serializing a `DerivationMetadata` record into a checkpoint
commit message and reconstructing a record from a commit carrying that
message — also through the commit-history scan — yields a record equal to the
one written.  The record's strings are assumed control-character-free, the
domain on which the modelled serializer agrees with `serde_json`. -/
theorem c7_state_durability (m : DerivationMetadata) (h : Str) (rest : List Commit)
    (hc : dmCleanStrings m) :
    parseDerivationCommitMessage ⟨h, makeDerivationCommitMessage m⟩ = some (some m) ∧
    getLastMetadata (Commit.mk h (makeDerivationCommitMessage m) :: rest)
      = Except.ok (some m) := by
  have hnl_pat : '\n' ∈ derivationComment := by decide
  have hnl_json : '\n' ∉ jsonMetadata m := newline_not_mem (ncc_jsonMetadata hc)
  have hparse : parseDerivationCommitMessage ⟨h, makeDerivationCommitMessage m⟩
      = some (some m) := by
    unfold parseDerivationCommitMessage makeDerivationCommitMessage
    rw [if_pos (containsSub_of_leads (leadsWith_append derivationComment (jsonMetadata m)))]
    rw [replaceAll_strip_sentinel hnl_pat hnl_json]
    rw [parseMetadata_round]
  refine ⟨hparse, ?_⟩
  unfold getLastMetadata
  rw [List.findSome?_cons]
  rw [hparse]

/-- Witness for claim C7 at a concrete record. -/
theorem c7_state_durability_witness :
    dmCleanStrings (newInitial "id0".toList [⟨"a".toList⟩]) ∧
    getLastMetadata
        [Commit.mk "h0".toList
          (makeDerivationCommitMessage (newInitial "id0".toList [⟨"a".toList⟩]))]
      = Except.ok (some (newInitial "id0".toList [⟨"a".toList⟩])) :=
  ⟨by decide,
    (c7_state_durability (newInitial "id0".toList [⟨"a".toList⟩]) "h0".toList []
      (by decide)).2⟩

/-- Claim C10: `GitInterface::checkout` returns a descriptive error and
issues no backend command (the state, clock and trace are untouched) when
the tree model records no branch at the path; when it does, it delegates to
the raw backend checkout of the path's branch form. -/
theorem c10_checkout_guard (modelPaths : List QPath) (p : QPath) (env : Nat → CmdOutcome)
    (st : RepoState) :
    (p ∉ modelPaths →
      ifaceCheckout modelPaths env p st
        = (Except.error (GErr.iface (checkoutErrMsg p)), st)) ∧
    (p ∈ modelPaths →
      ifaceCheckout modelPaths env p st
        = runRaw env (GitCmd.checkoutCmd (toGitBranch p)) (checkoutEff (toGitBranch p)) st) := by
  constructor
  · intro h
    unfold ifaceCheckout
    rw [if_neg h]
  · intro h
    unfold ifaceCheckout
    rw [if_pos h]

/-- Witness for claim C10 at the concrete path `/main`, absent and present in
the model. -/
theorem c10_checkout_guard_witness :
    ifaceCheckout [] envOk (qpFromStr "/main".toList) stMain
      = (Except.error (GErr.iface (checkoutErrMsg (qpFromStr "/main".toList))), stMain) ∧
    ifaceCheckout [qpFromStr "/main".toList] envOk (qpFromStr "/main".toList) stMain
      = runRaw envOk (GitCmd.checkoutCmd (toGitBranch (qpFromStr "/main".toList)))
          (checkoutEff (toGitBranch (qpFromStr "/main".toList))) stMain :=
  ⟨(c10_checkout_guard [] (qpFromStr "/main".toList) envOk stMain).1 (by decide),
    (c10_checkout_guard [qpFromStr "/main".toList] (qpFromStr "/main".toList) envOk stMain).2
      (by decide)⟩

/-- Claim C9, counterexample: inserting the tag path `/main/feature/root/v1`
with `is_tag = true` succeeds, and `has_branch` on that path is then true,
not false: `insert_qualified_path` pushes every inserted path — tags
included — onto `qualified_paths_with_branch`. -/
theorem c9_tag_counterexample :
    insertQualifiedPath treeNew (qpFromStr "/main/feature/root/v1".toList) true
      = some (some c9tree) ∧
    hasBranch c9tree (qpFromStr "/main/feature/root/v1".toList) := by
  constructor
  · rfl
  · decide

/-- Claim C9 (amended): for every path `p` successfully inserted into the
tree model with `is_tag = true`, `has_branch(p)` is true — the model records
tag paths in the branch-bearing list exactly like branch paths. -/
theorem c9_inserted_tag_has_branch (t : TreeDataModel) (p : QPath) (t2 : TreeDataModel)
    (h : insertQualifiedPath t p true = some (some t2)) : hasBranch t2 p := by
  unfold insertQualifiedPath at h
  by_cases habs : p.head? = some []
  · rw [if_pos habs] at h
    cases hin : insertNodePath t.virtualRoot (qpFromVec (p.drop 1)) true with
    | none => rw [hin] at h; exact absurd h (by simp)
    | some root2 =>
      rw [hin] at h
      simp only [Option.some.injEq] at h
      unfold hasBranch
      rw [← h]
      simp
  · rw [if_neg habs] at h
    exact absurd h (by simp)

/-- Witness for claim C9 at the concrete tag insertion. -/
theorem c9_inserted_tag_has_branch_witness :
    hasBranch c9tree (qpFromStr "/main/feature/root/v1".toList) :=
  c9_inserted_tag_has_branch treeNew (qpFromStr "/main/feature/root/v1".toList) c9tree rfl

lemma getMaxCliqueAux_spec (L : List (Finset Nat)) :
    ∀ b : Finset Nat,
      (L.foldl (fun best c => if c.card > best.card then c else best) b = b
        ∧ ∀ c ∈ L, c.card ≤ b.card) ∨
      ∃ l1 r l2, L = l1 ++ r :: l2
        ∧ L.foldl (fun best c => if c.card > best.card then c else best) b = r
        ∧ b.card < r.card ∧ (∀ c ∈ l1, c.card < r.card) ∧ ∀ c ∈ l2, c.card ≤ r.card := by
  induction L with
  | nil =>
    intro b
    left
    exact ⟨rfl, by simp⟩
  | cons c rest ih =>
    intro b
    rw [List.foldl_cons]
    by_cases h : c.card > b.card
    · rw [if_pos h]
      rcases ih c with ⟨heq, hle⟩ | ⟨l1, r, l2, hL, heq, hlt, hl1, hl2⟩
      · right
        exact ⟨[], c, rest, by simp, heq, h, by simp, hle⟩
      · right
        refine ⟨c :: l1, r, l2, by rw [hL]; simp, heq, Nat.lt_trans h hlt, ?_, hl2⟩
        intro d hd
        rcases List.mem_cons.mp hd with h1 | h2
        · rw [h1]; exact hlt
        · exact hl1 d h2
    · rw [if_neg h]
      rcases ih b with ⟨heq, hle⟩ | ⟨l1, r, l2, hL, heq, hlt, hl1, hl2⟩
      · left
        refine ⟨heq, ?_⟩
        intro d hd
        rcases List.mem_cons.mp hd with h1 | h2
        · rw [h1]; omega
        · exact hle d h2
      · right
        refine ⟨c :: l1, r, l2, by rw [hL]; simp, heq, hlt, ?_, hl2⟩
        intro d hd
        rcases List.mem_cons.mp hd with h1 | h2
        · rw [h1]; omega
        · exact hl1 d h2

lemma getMaxClique_spec (L : List (Finset Nat)) :
    (getMaxClique L = ∅ ∧ ∀ c ∈ L, c.card = 0) ∨
    ∃ l1 l2, L = l1 ++ getMaxClique L :: l2
      ∧ (∀ c ∈ l1, c.card < (getMaxClique L).card)
      ∧ ∀ c ∈ L, c.card ≤ (getMaxClique L).card := by
  rcases getMaxCliqueAux_spec L ∅ with ⟨heq, hle⟩ | ⟨l1, r, l2, hL, heq, _, hl1, hl2⟩
  · left
    refine ⟨heq, ?_⟩
    intro c hc
    have h0 := hle c hc
    simp only [Finset.card_empty, Nat.le_zero] at h0
    exact h0
  · right
    have hres : getMaxClique L = r := heq
    refine ⟨l1, l2, by rw [hres]; exact hL, by rw [hres]; exact hl1, ?_⟩
    intro c hc
    rw [hres]
    rw [hL] at hc
    rcases List.mem_append.mp hc with h1 | h2
    · exact Nat.le_of_lt (hl1 c h1)
    · rcases List.mem_cons.mp h2 with h3 | h4
      · rw [h3]
      · exact hl2 c h4

lemma isClique_empty (g : ConflictGraph) : isClique g ∅ := by
  constructor
  · intro v hv; simp at hv
  · intro x hx; simp at hx

lemma exists_maximal_extension (g : ConflictGraph) :
    ∀ (n : Nat) (c : Finset Nat), isClique g c → g.nodes.card - c.card ≤ n →
      ∃ mc, c ⊆ mc ∧ isMaximalClique g mc := by
  intro n
  induction n with
  | zero =>
    intro c hc hle
    refine ⟨c, Finset.Subset.refl c, hc, ?_⟩
    intro v hv hvc hins
    have hsub : insert v c ⊆ g.nodes := by
      intro x hx
      exact hins.1 x hx
    have hcard : (insert v c).card = c.card + 1 := Finset.card_insert_of_not_mem hvc
    have h2 := Finset.card_le_card hsub
    omega
  | succ n ih =>
    intro c hc hle
    by_cases hmax : isMaximalClique g c
    · exact ⟨c, Finset.Subset.refl c, hmax⟩
    · unfold isMaximalClique at hmax
      push_neg at hmax
      obtain ⟨v, hv, hvc, hins⟩ := hmax hc
      have hstep : g.nodes.card - (insert v c).card ≤ n := by
        have hsub : insert v c ⊆ g.nodes := fun x hx => hins.1 x hx
        have hcard : (insert v c).card = c.card + 1 := Finset.card_insert_of_not_mem hvc
        have h2 := Finset.card_le_card hsub
        omega
      obtain ⟨mc, hsub, hmc⟩ := ih (insert v c) hins hstep
      exact ⟨mc, (Finset.subset_insert v c).trans hsub, hmc⟩

lemma getMaxClique_mem_of_enum {g : ConflictGraph} {L : List (Finset Nat)}
    (hL : ∀ c, c ∈ L ↔ isMaximalClique g c) : getMaxClique L ∈ L := by
  obtain ⟨mc, _, hmc⟩ :=
    exists_maximal_extension g g.nodes.card ∅ (isClique_empty g) (by simp)
  have hmem : mc ∈ L := (hL mc).mpr hmc
  rcases getMaxClique_spec L with ⟨heq, hzero⟩ | ⟨l1, l2, hdecomp, _, _⟩
  · have hmc0 : mc = ∅ := Finset.card_eq_zero.mp (hzero mc hmem)
    rw [heq, ← hmc0]
    exact hmem
  · have hx : getMaxClique L ∈ l1 ++ getMaxClique L :: l2 :=
      List.mem_append.mpr (Or.inr (List.mem_cons_self _ _))
    rw [← hdecomp] at hx
    exact hx

lemma getMaxClique_ge_cliques {g : ConflictGraph} {L : List (Finset Nat)}
    (hL : ∀ c, c ∈ L ↔ isMaximalClique g c) (c : Finset Nat) (hc : isClique g c) :
    c.card ≤ (getMaxClique L).card := by
  obtain ⟨mc, hsub, hmc⟩ :=
    exists_maximal_extension g g.nodes.card c hc (Nat.sub_le _ _)
  have h1 : c.card ≤ mc.card := Finset.card_le_card hsub
  have h2 : mc ∈ L := (hL mc).mpr hmc
  have h3 : mc.card ≤ (getMaxClique L).card := by
    rcases getMaxClique_spec L with ⟨heq, hzero⟩ | ⟨_, _, _, _, hmax⟩
    · rw [heq]
      simp [hzero mc h2]
    · exact hmax mc h2
  omega

lemma getMaxClique_first_decomp {g : ConflictGraph} {L : List (Finset Nat)}
    (hL : ∀ c, c ∈ L ↔ isMaximalClique g c) :
    ∃ l1 l2, L = l1 ++ getMaxClique L :: l2
      ∧ ∀ c ∈ l1, c.card < (getMaxClique L).card := by
  rcases getMaxClique_spec L with ⟨heq, hzero⟩ | ⟨l1, l2, hdecomp, hl1, _⟩
  · have hne : L ≠ [] := by
      intro he
      have := getMaxClique_mem_of_enum hL
      rw [he] at this
      simp at this
    obtain ⟨c0, tail, rfl⟩ := List.exists_cons_of_ne_nil hne
    have hc0 : c0 = ∅ := Finset.card_eq_zero.mp (hzero c0 (List.mem_cons_self c0 tail))
    refine ⟨[], tail, ?_, by simp⟩
    rw [heq, hc0]
    simp
  · exact ⟨l1, l2, hdecomp, hl1⟩

lemma gABC_maximal_iff (c : Finset Nat) :
    isMaximalClique gABC c ↔ (c = {0, 1, 2} ∨ c = {3}) := by
  constructor
  · intro h
    have hsub : c ⊆ gABC.nodes := fun x hx => h.1.1 x hx
    have hpow : c ∈ gABC.nodes.powerset := Finset.mem_powerset.mpr hsub
    have hall : ∀ d ∈ gABC.nodes.powerset,
        isMaximalClique gABC d → (d = {0, 1, 2} ∨ d = {3}) := by decide
    exact hall c hpow h
  · intro h
    rcases h with rfl | rfl
    · decide
    · decide

/-- Claim C5: on the conflict graph with nodes A=0, B=1, C=2, D=3 and edges
exactly A-B, B-C, A-C, the clique selection applied to the maximal cliques
returns `\x7bA, B, C\x7d` and never includes D; in general, applied to the
maximal cliques of any graph, it returns the first maximal clique of maximum
size encountered, a clique of maximum size in the graph. -/
theorem c5_max_clique (L : List (Finset Nat))
    (hL : ∀ c, c ∈ L ↔ isMaximalClique gABC c) :
    getMaxClique L = {0, 1, 2} ∧ (3 : Nat) ∉ getMaxClique L ∧
    ∀ (g : ConflictGraph) (M : List (Finset Nat)),
      (∀ c, c ∈ M ↔ isMaximalClique g c) →
      isClique g (getMaxClique M) ∧ getMaxClique M ∈ M ∧
      (∀ c, isClique g c → c.card ≤ (getMaxClique M).card) ∧
      ∃ l1 l2, M = l1 ++ getMaxClique M :: l2
        ∧ ∀ c ∈ l1, c.card < (getMaxClique M).card := by
  have general : ∀ (g : ConflictGraph) (M : List (Finset Nat)),
      (∀ c, c ∈ M ↔ isMaximalClique g c) →
      isClique g (getMaxClique M) ∧ getMaxClique M ∈ M ∧
      (∀ c, isClique g c → c.card ≤ (getMaxClique M).card) ∧
      ∃ l1 l2, M = l1 ++ getMaxClique M :: l2
        ∧ ∀ c ∈ l1, c.card < (getMaxClique M).card := by
    intro g M hM
    have hmem : getMaxClique M ∈ M := getMaxClique_mem_of_enum hM
    exact ⟨((hM (getMaxClique M)).mp hmem).1, hmem,
      fun c hc => getMaxClique_ge_cliques hM c hc,
      getMaxClique_first_decomp hM⟩
  have hmem : getMaxClique L ∈ L := getMaxClique_mem_of_enum hL
  have hmax : isMaximalClique gABC (getMaxClique L) := (hL (getMaxClique L)).mp hmem
  have hcases := (gABC_maximal_iff (getMaxClique L)).mp hmax
  have habc : ({0, 1, 2} : Finset Nat) ∈ L :=
    (hL {0, 1, 2}).mpr ((gABC_maximal_iff {0, 1, 2}).mpr (Or.inl rfl))
  have hge : ({0, 1, 2} : Finset Nat).card ≤ (getMaxClique L).card :=
    getMaxClique_ge_cliques hL {0, 1, 2} (by decide)
  have heq : getMaxClique L = {0, 1, 2} := by
    rcases hcases with h | h
    · exact h
    · rw [h] at hge
      simp at hge
  refine ⟨heq, ?_, general⟩
  rw [heq]
  decide

/-- Witness for claim C5 at the explicit enumeration of the maximal cliques
of the concrete graph. -/
theorem c5_max_clique_witness :
    getMaxClique [({0, 1, 2} : Finset Nat), {3}] = {0, 1, 2} ∧
    (3 : Nat) ∉ getMaxClique [({0, 1, 2} : Finset Nat), {3}] :=
  have hL : ∀ c, c ∈ [({0, 1, 2} : Finset Nat), {3}] ↔ isMaximalClique gABC c := by
    intro c
    rw [gABC_maximal_iff c]
    simp
  ⟨(c5_max_clique [{0, 1, 2}, {3}] hL).1, (c5_max_clique [{0, 1, 2}, {3}] hL).2.1⟩

/-- Claim C1, counterexample: when the merge invocation itself fails at the
process level, `check_two` propagates the error through `?` and skips the
cleanup: afterwards the disposable branch `tmp` is checked out and still
exists, and the checked-out branch differs from the one before the call. -/
theorem c1_cleanup_counterexample :
    (checkTwo [qpFromStr "/main".toList] BaseBranch.current (qpFromStr "/a".toList)
        (qpFromStr "/b".toList) envMergeIoFail stMain).1 = Except.error (GErr.io 1) ∧
    (checkTwo [qpFromStr "/main".toList] BaseBranch.current (qpFromStr "/a".toList)
        (qpFromStr "/b".toList) envMergeIoFail stMain).2.headBr = "tmp".toList ∧
    "tmp".toList ∈ (checkTwo [qpFromStr "/main".toList] BaseBranch.current
        (qpFromStr "/a".toList) (qpFromStr "/b".toList) envMergeIoFail stMain).2.branches ∧
    (checkTwo [qpFromStr "/main".toList] BaseBranch.current (qpFromStr "/a".toList)
        (qpFromStr "/b".toList) envMergeIoFail stMain).2.headBr ≠ stMain.headBr := by
  refine ⟨rfl, rfl, by decide, by decide⟩

/-- Claim C1 (amended): for every invocation of `check_two` in which every
backend command completes at the process level and every command other than
the merge reports success, the call returns the merge's success flag, the
branch checked out after the call equals the branch checked out before it,
and the branch list — in particular the absence of the disposable branch —
is restored.  When a backend command fails at the process level the error is
propagated immediately and the cleanup does not run (see the
counterexample). -/
theorem c1_cleanup (modelPaths : List QPath) (base : BaseBranch) (l r : QPath)
    (env : Nat → CmdOutcome) (brs : List Str) (hd : Str) (mrg : Bool) (tr : List GitCmd)
    (mok : Bool)
    (hbase : ∀ p, base = BaseBranch.custom p → p ∈ modelPaths)
    (hcur : qpPush [[]] hd ∈ modelPaths)
    (hrt : toGitBranch (qpPush [[]] hd) = hd)
    (hm : env (mergePos base) = CmdOutcome.exit mok)
    (hrest : ∀ k, k ≠ mergePos base → env k = CmdOutcome.exit true) :
    (checkTwo modelPaths base l r env ⟨brs, hd, mrg, 0, tr⟩).1 = Except.ok mok ∧
    (checkTwo modelPaths base l r env ⟨brs, hd, mrg, 0, tr⟩).2.headBr = hd ∧
    (checkTwo modelPaths base l r env ⟨brs, hd, mrg, 0, tr⟩).2.branches = brs ∧
    (toGitBranch tmpPath ∉ brs →
      toGitBranch tmpPath ∉ (checkTwo modelPaths base l r env ⟨brs, hd, mrg, 0, tr⟩).2.branches) := by
  have key : (checkTwo modelPaths base l r env ⟨brs, hd, mrg, 0, tr⟩).1 = Except.ok mok ∧
      (checkTwo modelPaths base l r env ⟨brs, hd, mrg, 0, tr⟩).2.headBr = hd ∧
      (checkTwo modelPaths base l r env ⟨brs, hd, mrg, 0, tr⟩).2.branches = brs := by
    cases base with
    | current =>
      have e0 := hrest 0 (by simp [mergePos])
      have e1 := hrest 1 (by simp [mergePos])
      have e2 := hrest 2 (by simp [mergePos])
      have e3 : env 3 = CmdOutcome.exit mok := hm
      have e4 := hrest 4 (by simp [mergePos])
      have e5 := hrest 5 (by simp [mergePos])
      have e6 := hrest 6 (by simp [mergePos])
      cases mok with
      | true =>
        simp [checkTwo, runRaw, ifaceCheckout, checkoutEff, createEff, mergeEff, abortEff,
          deleteEff, noEff, e0, e1, e2, e3, e4, e5, e6, hcur, hrt, List.erase_cons_head]
      | false =>
        simp [checkTwo, runRaw, ifaceCheckout, checkoutEff, createEff, mergeEff, abortEff,
          deleteEff, noEff, e0, e1, e2, e3, e4, e5, e6, hcur, hrt, List.erase_cons_head]
    | custom p =>
      have hp : p ∈ modelPaths := hbase p rfl
      have e0 := hrest 0 (by simp [mergePos])
      have e1 := hrest 1 (by simp [mergePos])
      have e2 := hrest 2 (by simp [mergePos])
      have e3 := hrest 3 (by simp [mergePos])
      have e4 : env 4 = CmdOutcome.exit mok := hm
      have e5 := hrest 5 (by simp [mergePos])
      have e6 := hrest 6 (by simp [mergePos])
      have e7 := hrest 7 (by simp [mergePos])
      cases mok with
      | true =>
        simp [checkTwo, runRaw, ifaceCheckout, checkoutEff, createEff, mergeEff, abortEff,
          deleteEff, noEff, e0, e1, e2, e3, e4, e5, e6, e7, hp, hcur, hrt,
          List.erase_cons_head]
      | false =>
        simp [checkTwo, runRaw, ifaceCheckout, checkoutEff, createEff, mergeEff, abortEff,
          deleteEff, noEff, e0, e1, e2, e3, e4, e5, e6, e7, hp, hcur, hrt,
          List.erase_cons_head]
  refine ⟨key.1, key.2.1, key.2.2, ?_⟩
  intro htmp
  rw [key.2.2]
  exact htmp

/-- Witness for claim C1: a concrete all-success run restores the checkout
and leaves no disposable branch. -/
theorem c1_cleanup_witness :
    (checkTwo [qpFromStr "/main".toList] BaseBranch.current (qpFromStr "/a".toList)
        (qpFromStr "/b".toList) envOk ⟨["main".toList], "main".toList, false, 0, []⟩).1
      = Except.ok true ∧
    (checkTwo [qpFromStr "/main".toList] BaseBranch.current (qpFromStr "/a".toList)
        (qpFromStr "/b".toList) envOk ⟨["main".toList], "main".toList, false, 0, []⟩).2.headBr
      = "main".toList ∧
    (checkTwo [qpFromStr "/main".toList] BaseBranch.current (qpFromStr "/a".toList)
        (qpFromStr "/b".toList) envOk ⟨["main".toList], "main".toList, false, 0, []⟩).2.branches
      = ["main".toList] ∧
    (toGitBranch tmpPath ∉ [("main".toList : Str)] →
      toGitBranch tmpPath ∉ (checkTwo [qpFromStr "/main".toList] BaseBranch.current
          (qpFromStr "/a".toList) (qpFromStr "/b".toList) envOk
          ⟨["main".toList], "main".toList, false, 0, []⟩).2.branches) :=
  c1_cleanup [qpFromStr "/main".toList] BaseBranch.current (qpFromStr "/a".toList)
    (qpFromStr "/b".toList) envOk ["main".toList] "main".toList false [] true
    (fun p h => by cases h) (by decide) (by decide) rfl (fun k _ => rfl)

/-- Claim C4: when every backend command completes and every non-merge
command succeeds, a successful merge classifies as `OK([l, r])` and a merge
that reports failure classifies as `CONFLICT([l, r])` with the in-progress
merge explicitly aborted (the abort command is issued and no merge is left
in progress) before the statistic is produced; and whenever `check_two`
propagates a backend error, the statistic is `ERROR([l, r], cause)` carrying
that cause. -/
theorem c4_classification (modelPaths : List QPath) (base : BaseBranch) (l r : QPath)
    (env : Nat → CmdOutcome) (brs : List Str) (hd : Str) (mrg : Bool) (tr : List GitCmd)
    (mok : Bool)
    (hbase : ∀ p, base = BaseBranch.custom p → p ∈ modelPaths)
    (hcur : qpPush [[]] hd ∈ modelPaths)
    (hm : env (mergePos base) = CmdOutcome.exit mok)
    (hrest : ∀ k, k ≠ mergePos base → env k = CmdOutcome.exit true) :
    (buildStatistic [l, r] (checkTwo modelPaths base l r env ⟨brs, hd, mrg, 0, tr⟩).1
      = if mok then ConflictStatistic.OK [l, r] else ConflictStatistic.CONFLICT [l, r]) ∧
    (mok = false →
      GitCmd.abortMergeCmd
          ∈ (checkTwo modelPaths base l r env ⟨brs, hd, mrg, 0, tr⟩).2.trace ∧
        (checkTwo modelPaths base l r env ⟨brs, hd, mrg, 0, tr⟩).2.merging = false) ∧
    ∀ (env2 : Nat → CmdOutcome) (st2 : RepoState) (e : GErr),
      (checkTwo modelPaths base l r env2 st2).1 = Except.error e →
      buildStatistic [l, r] (checkTwo modelPaths base l r env2 st2).1
        = ConflictStatistic.ERROR [l, r] e := by
  refine ⟨?_, ?_, ?_⟩
  · cases base with
    | current =>
      have e0 := hrest 0 (by simp [mergePos])
      have e1 := hrest 1 (by simp [mergePos])
      have e2 := hrest 2 (by simp [mergePos])
      have e3 : env 3 = CmdOutcome.exit mok := hm
      have e4 := hrest 4 (by simp [mergePos])
      have e5 := hrest 5 (by simp [mergePos])
      have e6 := hrest 6 (by simp [mergePos])
      cases mok with
      | true =>
        simp [checkTwo, runRaw, ifaceCheckout, checkoutEff, createEff, mergeEff, abortEff,
          deleteEff, noEff, e0, e1, e2, e3, e4, e5, e6, hcur, buildStatistic]
      | false =>
        simp [checkTwo, runRaw, ifaceCheckout, checkoutEff, createEff, mergeEff, abortEff,
          deleteEff, noEff, e0, e1, e2, e3, e4, e5, e6, hcur, buildStatistic]
    | custom p =>
      have hp : p ∈ modelPaths := hbase p rfl
      have e0 := hrest 0 (by simp [mergePos])
      have e1 := hrest 1 (by simp [mergePos])
      have e2 := hrest 2 (by simp [mergePos])
      have e3 := hrest 3 (by simp [mergePos])
      have e4 : env 4 = CmdOutcome.exit mok := hm
      have e5 := hrest 5 (by simp [mergePos])
      have e6 := hrest 6 (by simp [mergePos])
      have e7 := hrest 7 (by simp [mergePos])
      cases mok with
      | true =>
        simp [checkTwo, runRaw, ifaceCheckout, checkoutEff, createEff, mergeEff, abortEff,
          deleteEff, noEff, e0, e1, e2, e3, e4, e5, e6, e7, hp, hcur, buildStatistic]
      | false =>
        simp [checkTwo, runRaw, ifaceCheckout, checkoutEff, createEff, mergeEff, abortEff,
          deleteEff, noEff, e0, e1, e2, e3, e4, e5, e6, e7, hp, hcur, buildStatistic]
  · intro hmok
    subst hmok
    cases base with
    | current =>
      have e0 := hrest 0 (by simp [mergePos])
      have e1 := hrest 1 (by simp [mergePos])
      have e2 := hrest 2 (by simp [mergePos])
      have e3 : env 3 = CmdOutcome.exit false := hm
      have e4 := hrest 4 (by simp [mergePos])
      have e5 := hrest 5 (by simp [mergePos])
      have e6 := hrest 6 (by simp [mergePos])
      simp [checkTwo, runRaw, ifaceCheckout, checkoutEff, createEff, mergeEff, abortEff,
        deleteEff, noEff, e0, e1, e2, e3, e4, e5, e6, hcur]
    | custom p =>
      have hp : p ∈ modelPaths := hbase p rfl
      have e0 := hrest 0 (by simp [mergePos])
      have e1 := hrest 1 (by simp [mergePos])
      have e2 := hrest 2 (by simp [mergePos])
      have e3 := hrest 3 (by simp [mergePos])
      have e4 : env 4 = CmdOutcome.exit false := hm
      have e5 := hrest 5 (by simp [mergePos])
      have e6 := hrest 6 (by simp [mergePos])
      have e7 := hrest 7 (by simp [mergePos])
      simp [checkTwo, runRaw, ifaceCheckout, checkoutEff, createEff, mergeEff, abortEff,
        deleteEff, noEff, e0, e1, e2, e3, e4, e5, e6, e7, hp, hcur]
  · intro env2 st2 e he
    rw [he]
    rfl

/-- Witness for claim C4: a concrete run whose merge reports a conflict
yields the CONFLICT statistic after aborting the merge. -/
theorem c4_classification_witness :
    buildStatistic [qpFromStr "/a".toList, qpFromStr "/b".toList]
        (checkTwo [qpFromStr "/main".toList] BaseBranch.current (qpFromStr "/a".toList)
          (qpFromStr "/b".toList) envMergeConflict
          ⟨["main".toList], "main".toList, false, 0, []⟩).1
      = ConflictStatistic.CONFLICT [qpFromStr "/a".toList, qpFromStr "/b".toList] ∧
    GitCmd.abortMergeCmd ∈ (checkTwo [qpFromStr "/main".toList] BaseBranch.current
        (qpFromStr "/a".toList) (qpFromStr "/b".toList) envMergeConflict
        ⟨["main".toList], "main".toList, false, 0, []⟩).2.trace := by
  have h := c4_classification [qpFromStr "/main".toList] BaseBranch.current
    (qpFromStr "/a".toList) (qpFromStr "/b".toList) envMergeConflict
    ["main".toList] "main".toList false [] false
    (fun p hp => by cases hp) (by decide) rfl
    (fun k hk => by simp only [mergePos] at hk; simp [envMergeConflict, hk])
  exact ⟨by simpa using h.1, (h.2.1 rfl).1⟩

end Tangle
